import Mathlib

/-!
# luatzgen: TZif decoder and Lua table encoder

A shallow embedding of `main.go`: the best-effort reader used by `toLua`, the
path-to-zone-name helper `stripPath`, the abbreviation scanner `readZeroString`
and the renderer `tz.ToLua`, followed by theorems about them.

Conventions of the embedding.

* A byte is a `Fin 256`; Go strings and byte slices are `List Byte`.
* `uint32` values are natural numbers; every one built by the decoder comes from
  four bytes through `uint32BE` and is therefore below `2 ^ 32`.
* The opened file is the list of bytes still unread. `toLua` takes the path and
  the content of the file the path names.
* A Go run-time panic (index out of range) is a result of its own, distinct
  from a returned `error` value.
-/

namespace Luatzgen

set_option maxRecDepth 100000

/-- One octet of a Go string, byte slice or file. -/
abbrev Byte := Fin 256

/-- The bytes of an ASCII string literal. -/
def ascii (s : String) : List Byte := s.toList.map (fun c => Fin.ofNat c.toNat)

/-- Package-level variable `tzinfoVersion`. -/
def tzinfoVersion : List Byte := ascii "2018g"

/-! ## Data model -/

/-- Go struct `tzhead`; the blank 15-byte field carries no data. -/
structure tzhead where
  Magic : Byte × Byte × Byte × Byte
  Version : Byte
  TransIsGMTCount : Nat
  TransIsStdCount : Nat
  LeapCount : Nat
  TimeCount : Nat
  TypeCount : Nat
  CharCount : Nat
  deriving DecidableEq, Repr

/-- Go struct `tzentry`. -/
structure tzentry where
  Offset : Nat
  IsDST : Bool
  AbbrIndex : Byte
  deriving DecidableEq, Repr

/-- Go struct `tzleap`. -/
structure tzleap where
  A : Nat
  B : Nat
  deriving DecidableEq, Repr

/-- Go struct `tz`. -/
structure tz where
  Header : tzhead
  Times : List Nat
  Types : List Byte
  Offsets : List tzentry
  ZoneAbbrs : List Byte
  Leaps : List tzleap
  IsStandard : List Bool
  IsUT : List Bool
  deriving DecidableEq, Repr

/-- What a call of `toLua` does: return `(out, nil)`, return `(out, err)` with a
non-nil error carrying `msg`, or panic at run time. -/
inductive Result where
  | ok (out : List Byte)
  | error (out : List Byte) (msg : String)
  | panic
  deriving DecidableEq, Repr

/-! ## Reading -/

/-- Library function `io.ReadFull` on a file: either all `n` bytes are there, or
the read fails, having consumed what was left. -/
def readFull (n : Nat) (r : List Byte) : Option (List Byte) × List Byte :=
  if n ≤ r.length then (some (r.take n), r.drop n) else (none, [])

/-- Library function `binary.BigEndian.Uint32`:
`uint32(b[3]) | uint32(b[2])<<8 | uint32(b[1])<<16 | uint32(b[0])<<24`. -/
def uint32BE (b0 b1 b2 b3 : Byte) : Nat :=
  b3.val ||| (b2.val <<< 8) ||| (b1.val <<< 16) ||| (b0.val <<< 24)

/-- The big-endian `uint32` stored at offset `i` of a buffer. -/
def u32At (bs : List Byte) (i : Nat) : Nat :=
  uint32BE (bs.getD i 0) (bs.getD (i + 1) 0) (bs.getD (i + 2) 0) (bs.getD (i + 3) 0)

/-- Library function `binary.Read` into a fixed-size value of `k` bytes whose
variable held `zero` before the call: on a short read the error is dropped by
the caller and the variable keeps `zero`. -/
def readFixed {α : Type} (k : Nat) (dec : List Byte → α) (zero : α)
    (r : List Byte) : α × List Byte :=
  match readFull k r with
  | (some bs, r') => (dec bs, r')
  | (none, r') => (zero, r')

/-- The zero value of `tzhead`. -/
def zeroHead : tzhead :=
  { Magic := (0, 0, 0, 0), Version := 0, TransIsGMTCount := 0, TransIsStdCount := 0,
    LeapCount := 0, TimeCount := 0, TypeCount := 0, CharCount := 0 }

/-- Layout of the 44 header bytes. -/
def decodeHead (bs : List Byte) : tzhead :=
  { Magic := (bs.getD 0 0, bs.getD 1 0, bs.getD 2 0, bs.getD 3 0),
    Version := bs.getD 4 0,
    TransIsGMTCount := u32At bs 20,
    TransIsStdCount := u32At bs 24,
    LeapCount := u32At bs 28,
    TimeCount := u32At bs 32,
    TypeCount := u32At bs 36,
    CharCount := u32At bs 40 }

/-- Statement `binary.Read(f, binary.BigEndian, &tz.Header)` on a fresh `tz`. -/
def readHeader (r : List Byte) : tzhead × List Byte :=
  readFixed 44 decodeHead zeroHead r

/-- Statement `binary.Read` into a fresh `uint32`. -/
def readU32 (r : List Byte) : Nat × List Byte :=
  readFixed 4 (fun bs => u32At bs 0) 0 r

/-- Statement `binary.Read` into a fresh `uint8`. -/
def readU8 (r : List Byte) : Byte × List Byte :=
  readFixed 1 (fun bs => bs.getD 0 0) 0 r

/-- Layout of the 6 bytes of a `tzentry`; a `bool` is true when its byte is not 0. -/
def decodeEntry (bs : List Byte) : tzentry :=
  { Offset := u32At bs 0, IsDST := decide (bs.getD 4 0 ≠ 0), AbbrIndex := bs.getD 5 0 }

/-- Statement `binary.Read` into a fresh `tzentry`. -/
def readEntry (r : List Byte) : tzentry × List Byte :=
  readFixed 6 decodeEntry { Offset := 0, IsDST := false, AbbrIndex := 0 } r

/-- Statement `binary.Read` into a fresh `tzleap`. -/
def readLeap (r : List Byte) : tzleap × List Byte :=
  readFixed 8 (fun bs => { A := u32At bs 0, B := u32At bs 4 }) { A := 0, B := 0 } r

/-- Statement `binary.Read` into a fresh `uint8`, kept as the flag `v == 1`. -/
def readFlag (r : List Byte) : Bool × List Byte :=
  let (v, r') := readU8 r
  (decide (v = 1), r')

/-- A loop `for i := uint32(0); i < n; i++ { read; append }`. -/
def readLoop {α : Type} (read : List Byte → α × List Byte) :
    Nat → List α → List Byte → List α × List Byte
  | 0, acc, r => (acc, r)
  | n + 1, acc, r =>
    let (v, r') := read r
    readLoop read n (acc ++ [v]) r'

/-- Statements `b := make([]byte, n); f.Read(b)`: one read of a file fills the
front of the buffer with the bytes that are left and leaves the rest zero. -/
def fileRead (n : Nat) (r : List Byte) : List Byte × List Byte :=
  (r.take n ++ List.replicate (n - r.length) 0, r.drop n)

/-- The seven section reads of `toLua`, lines 67 to 104, given the header. -/
def decodeBody (hd : tzhead) (r0 : List Byte) : tz × List Byte :=
  let (times, r1) := readLoop readU32 hd.TimeCount [] r0
  let (types, r2) := readLoop readU8 hd.TimeCount [] r1
  let (offsets, r3) := readLoop readEntry hd.TypeCount [] r2
  let (abbrs, r4) := fileRead hd.CharCount r3
  let (leaps, r5) := readLoop readLeap hd.LeapCount [] r4
  let (isStd, r6) := readLoop readFlag hd.TransIsStdCount [] r5
  let (isUT, r7) := readLoop readFlag hd.TransIsGMTCount [] r6
  ({ Header := hd, Times := times, Types := types, Offsets := offsets,
     ZoneAbbrs := abbrs, Leaps := leaps, IsStandard := isStd, IsUT := isUT }, r7)

/-- The model `toLua` holds when it calls `ToLua` (whatever the magic). -/
def decode (file : List Byte) : tz :=
  (decodeBody (readHeader file).1 (readHeader file).2).1

/-! ## Zone name -/

/-- Library function `strings.Split(p, "/")`. -/
def splitSlash : List Byte → List (List Byte)
  | [] => [[]]
  | c :: cs =>
    if c = 47 then [] :: splitSlash cs
    else
      match splitSlash cs with
      | [] => [[c]]
      | w :: ws => (c :: w) :: ws

/-- Library function `strings.Join(parts, "/")`. -/
def joinSlash : List (List Byte) → List Byte
  | [] => []
  | [w] => w
  | w :: ws => w ++ 47 :: joinSlash ws

/-- The loop of `stripPath`: the last index holding `"zoneinfo"`, or `-1`. -/
def findZoneinfo (tmp : List (List Byte)) : Int :=
  (List.range tmp.length).foldl
    (fun (found : Int) (i : Nat) =>
      if tmp[i]? = some (ascii "zoneinfo") then (i : Int) else found) (-1)

/-- Go function `stripPath`. -/
def stripPath (p : List Byte) : List Byte :=
  let tmp := splitSlash p
  let found := findZoneinfo tmp
  if found > 0 then joinSlash (tmp.drop (found + 1).toNat) else ascii "???"

/-! ## Rendering -/

/-- One step of the loop of `readZeroString`, repeated at most `fuel` times;
`none` is the panic of `data[offset]` out of range. -/
def readZeroStringLoop (data : List Byte) : Nat → List Byte → Nat → Option (List Byte)
  | 0, _, _ => none
  | fuel + 1, buf, offset =>
    match data[offset]? with
    | none => none
    | some c => if c = 0 then some buf else readZeroStringLoop data fuel (buf ++ [c]) (offset + 1)

/-- Go function `readZeroString`. The loop runs at most `len(data) + 1` times
before `offset` leaves the slice, so this fuel is never used up. -/
def readZeroString (data : List Byte) (offset : Nat) : Option (List Byte) :=
  readZeroStringLoop data (data.length + 1) [] offset

/-- The digit `d` as a character: `byte('0' + d)`. -/
def digit (d : Nat) : Byte := Fin.ofNat (48 + d)

/-- The loop of the integer formatter behind verb `%d`, which writes the digits
from the last one backwards: `for u >= 10 { buf[i] = '0' + u%10; u /= 10 }`, then
`buf[i] = '0' + u`. It is repeated at most `fuel` times. -/
def fmtUintLoop : Nat → Nat → List Byte → List Byte
  | 0, _, buf => buf
  | fuel + 1, u, buf =>
    if 10 ≤ u then fmtUintLoop fuel (u / 10) (digit (u % 10) :: buf)
    else digit u :: buf

/-- Verb `%d` on an unsigned integer: its decimal digits. The loop runs once for
each digit, so the fuel `u + 1` is never used up. -/
def fmtUint (u : Nat) : List Byte := fmtUintLoop (u + 1) u []

/-- The number a string of decimal digits denotes. -/
def decValue (l : List Byte) : Nat := l.foldl (fun a b => 10 * a + (b.val - 48)) 0

/-- Verb `%t`. -/
def fmtBool (b : Bool) : List Byte := if b then ascii "true" else ascii "false"

/-- The first `Fprintf` of `ToLua`. -/
def headerLine (zoneName : List Byte) : List Byte :=
  ascii "\x7b version = \"" ++ tzinfoVersion ++ ascii "\", zone = \"" ++ zoneName ++ ascii "\",\n"

/-- The `Fprintf` of the loop body of `ToLua`. -/
def rowText (tt : Nat) (dst : Bool) (abbr : List Byte) (off : Nat) : List Byte :=
  ascii "  \x7bts=" ++ fmtUint tt ++ ascii ", dst=" ++ fmtBool dst ++ ascii ", name=\"" ++ abbr
    ++ ascii "\", ut_offset=" ++ fmtUint off ++ ascii "\x7d,\n"

/-- The last `Fprintf` of `ToLua`. -/
def closingLine : List Byte := ascii "\x7d\n"

/-- The text the loop body of `ToLua` writes at index `i`; `none` when one of its
index expressions panics. -/
def rowAt (t : tz) (i : Nat) : Option (List Byte) :=
  match t.Times[i]? with
  | none => none
  | some tt =>
    match t.Types[i]? with
    | none => none
    | some ty =>
      match t.Offsets[ty.val]? with
      | none => none
      | some o =>
        match readZeroString t.ZoneAbbrs o.AbbrIndex.val with
        | none => none
        | some abbr => some (rowText tt o.IsDST abbr o.Offset)

/-- The loop of `ToLua` from index `i`, with `n` rounds to go. -/
def ToLuaLoop (t : tz) : Nat → Nat → List Byte → Option (List Byte)
  | 0, _, buf => some buf
  | n + 1, i, buf =>
    match rowAt t i with
    | none => none
    | some row => ToLuaLoop t n (i + 1) (buf ++ row)

/-- Go method `tz.ToLua`; `none` is a run-time panic. -/
def tz.ToLua (t : tz) (zoneName : List Byte) : Option (List Byte) :=
  match ToLuaLoop t t.Header.TimeCount 0 (headerLine zoneName) with
  | none => none
  | some buf => some (buf ++ closingLine)

/-- Go function `toLua` on the content of the opened file, with the bytes of the
file left unread when it exits. -/
def toLuaRun (path file : List Byte) : Result × List Byte :=
  let (hd, r0) := readHeader file
  if hd.Magic.1 ≠ 84 ∨ hd.Magic.2.1 ≠ 90 ∨ hd.Magic.2.2.1 ≠ 105 ∨ hd.Magic.2.2.2 ≠ 102 then
    (Result.error [] "magic != TZif", r0)
  else
    let (t, r7) := decodeBody hd r0
    let name := stripPath path
    match t.ToLua name with
    | none => (Result.panic, r7)
    | some out => (Result.ok out, r7)

/-- Go function `toLua`. -/
def toLua (path file : List Byte) : Result := (toLuaRun path file).1

/-! ## Test data -/

/-- A 44-byte header with magic `TZif`, version byte 0 and the six counts, each
below 256, in the order of the file. -/
def mkHeader (gmt std leap time typ char : Byte) : List Byte :=
  [84, 90, 105, 102, 0] ++ List.replicate 15 0 ++
    [0, 0, 0, gmt, 0, 0, 0, std, 0, 0, 0, leap, 0, 0, 0, time, 0, 0, 0, typ, 0, 0, 0, char]

/-- The scenario of the specification: one transition at 1000, one type record
with offset bytes `FF FF B9 B0`, abbreviation bytes `EST\0`. -/
def scenarioEST : List Byte :=
  mkHeader 0 0 0 1 1 4 ++ [0, 0, 3, 232] ++ [0] ++ [255, 255, 185, 176, 0, 0] ++ [69, 83, 84, 0]

/-- The path `/usr/share/zoneinfo/EST`. -/
def pathEST : List Byte := ascii "/usr/share/zoneinfo/EST"

/-- A stream cut short: its header declares 10 transitions, 1 type record and 1
abbreviation byte (101 bytes in all), and only the first 4 transition times
follow it. -/
def truncated10 : List Byte :=
  mkHeader 0 0 0 10 1 1 ++ [0, 0, 0, 1, 0, 0, 0, 2, 0, 0, 0, 3, 0, 0, 0, 4]

/-- The scenario stream with its type index changed from 0 to 1, the number of
type records. -/
def badTypeIndex : List Byte :=
  mkHeader 0 0 0 1 1 4 ++ [0, 0, 3, 232] ++ [1] ++ [255, 255, 185, 176, 0, 0] ++ [69, 83, 84, 0]

/-- The scenario stream with abbreviation bytes `ESTX`, none of them zero. -/
def unterminatedAbbr : List Byte :=
  mkHeader 0 0 0 1 1 4 ++ [0, 0, 3, 232] ++ [0] ++ [255, 255, 185, 176, 0, 0] ++ [69, 83, 84, 88]

/-- A stream whose two transition times, 2000 then 1000, are stored out of
order; one type record, abbreviation bytes `EST\0`. -/
def nonMonotonic : List Byte :=
  mkHeader 0 0 0 2 1 4 ++ [0, 0, 7, 208, 0, 0, 3, 232] ++ [0, 0] ++
    [255, 255, 185, 176, 0, 0] ++ [69, 83, 84, 0]

/-- The scenario stream with its transition time changed to the bytes
`FF FF FF FF`, one second before 1970 as a signed value. -/
def beforeEpoch : List Byte :=
  mkHeader 0 0 0 1 1 4 ++ [255, 255, 255, 255] ++ [0] ++ [255, 255, 185, 176, 0, 0] ++
    [69, 83, 84, 0]

/-- A stream of 14 bytes that begins with `TZif` and ends inside the header. -/
def shortHeader : List Byte := [84, 90, 105, 102, 50] ++ List.replicate 9 0

/-- The path `/tmp/copy/zoneinfo/EST`, which names the zone `EST` too. -/
def pathESTCopy : List Byte := ascii "/tmp/copy/zoneinfo/EST"

/-- The decoded model of the scenario stream with its version, its leap and flag
counts, its leap records and its flags changed. -/
def scenarioOtherExtras : tz :=
  { decode scenarioEST with
    Header := { (decode scenarioEST).Header with
      Version := 50, LeapCount := 1, TransIsStdCount := 1, TransIsGMTCount := 1,
      TypeCount := 7, CharCount := 9 }
    Leaps := [{ A := 78796800, B := 1 }]
    IsStandard := [true]
    IsUT := [true] }

/-- The path `/usr/share/zoneinfo/America/New_York`. -/
def pathNewYork : List Byte := ascii "/usr/share/zoneinfo/America/New_York"

/-- The path `/etc/localtime`, without a component `zoneinfo`. -/
def pathLocaltime : List Byte := ascii "/etc/localtime"

/-- A whole version-1 stream of 66 bytes: one transition, one type record, four
abbreviation bytes, one leap record, one standard flag and one UT flag. -/
def fullStream : List Byte :=
  mkHeader 1 1 1 1 1 4 ++ [0, 0, 3, 232] ++ [0] ++ [255, 255, 185, 176, 0, 0] ++
    [69, 83, 84, 0] ++ [4, 178, 88, 0, 0, 0, 0, 1] ++ [1] ++ [1]

/-- Bytes that follow a version-1 block in a version-2 file: a second header. -/
def trailingBlock : List Byte := [84, 90, 105, 102, 50] ++ List.replicate 39 7

/-! ## Predicates used in the statements -/

/-- The four magic bytes `TZif`. -/
def magicTZif : List Byte := [84, 90, 105, 102]

/-- The stream holds a whole header whose magic is `TZif`. -/
def ValidHeader (file : List Byte) : Prop := 44 ≤ file.length ∧ file.take 4 = magicTZif

instance (file : List Byte) : Decidable (ValidHeader file) := by
  unfold ValidHeader; infer_instance

/-- The number of bytes the counts of a header ask for, header included. -/
def declaredLength (hd : tzhead) : Nat :=
  44 + 5 * hd.TimeCount + 6 * hd.TypeCount + hd.CharCount + 8 * hd.LeapCount
    + hd.TransIsStdCount + hd.TransIsGMTCount

/-- A zero byte occurs in `data` at some index at or after `offset`. -/
def HasNulFrom (data : List Byte) (offset : Nat) : Prop :=
  ∃ k, k < data.length ∧ offset ≤ k ∧ data[k]? = some 0

instance (data : List Byte) (offset : Nat) : Decidable (HasNulFrom data offset) := by
  unfold HasNulFrom; infer_instance

/-- Index `i` of the loop of `ToLua` selects a type record that exists and
whose abbreviation is terminated. -/
def ValidRow (t : tz) (i : Nat) : Prop :=
  ∃ ty ∈ t.Types[i]?, ∃ o ∈ t.Offsets[ty.val]?, HasNulFrom t.ZoneAbbrs o.AbbrIndex.val

instance (t : tz) (i : Nat) : Decidable (ValidRow t i) := by
  unfold ValidRow; infer_instance

/-- A well-formed model: enough times and type indices for the declared count,
every type index below the number of type records, every selected abbreviation
terminated by a zero byte. -/
def WellFormed (t : tz) : Prop :=
  t.Header.TimeCount ≤ t.Times.length ∧ t.Header.TimeCount ≤ t.Types.length ∧
    ∀ i, i < t.Header.TimeCount → ValidRow t i

instance (t : tz) : Decidable (WellFormed t) := by
  unfold WellFormed; infer_instance

/-- The bytes of `l` before its first zero byte, when it has one. -/
def scanNul : List Byte → Option (List Byte)
  | [] => none
  | c :: cs => if c = 0 then some [] else (scanNul cs).map (fun s => c :: s)

/-- Where the type indices start in a stream with header `hd`. -/
def offTypes (hd : tzhead) : Nat := 44 + 4 * hd.TimeCount

/-- Where the type records start. -/
def offEntries (hd : tzhead) : Nat := 44 + 5 * hd.TimeCount

/-- Where the abbreviation bytes start. -/
def offAbbrs (hd : tzhead) : Nat := 44 + 5 * hd.TimeCount + 6 * hd.TypeCount

/-- Where the leap records start. -/
def offLeaps (hd : tzhead) : Nat := 44 + 5 * hd.TimeCount + 6 * hd.TypeCount + hd.CharCount

/-- Where the standard flags start. -/
def offStd (hd : tzhead) : Nat :=
  44 + 5 * hd.TimeCount + 6 * hd.TypeCount + hd.CharCount + 8 * hd.LeapCount

/-- Where the UT flags start. -/
def offUT (hd : tzhead) : Nat :=
  44 + 5 * hd.TimeCount + 6 * hd.TypeCount + hd.CharCount + 8 * hd.LeapCount
    + hd.TransIsStdCount

/-- The six bytes at offset `x` of a stream, as a type record. -/
def entryAt (file : List Byte) (x : Nat) : tzentry :=
  { Offset := u32At file x, IsDST := decide (file.getD (x + 4) 0 ≠ 0),
    AbbrIndex := file.getD (x + 5) 0 }

/-- The eight bytes at offset `x` of a stream, as a leap record. -/
def leapAt (file : List Byte) (x : Nat) : tzleap :=
  { A := u32At file x, B := u32At file (x + 4) }

/-- The big-endian reading of the four bytes at offset `x` of a stream, as the
format defines it: `b0 * 2^24 + b1 * 2^16 + b2 * 2^8 + b3`. -/
def bigEndianAt (file : List Byte) (x : Nat) : Nat :=
  (file.getD x 0).val * 2 ^ 24 + (file.getD (x + 1) 0).val * 2 ^ 16
    + (file.getD (x + 2) 0).val * 2 ^ 8 + (file.getD (x + 3) 0).val

/-! ## Reading: basic facts -/

theorem readHeader_long (file : List Byte) (h : 44 ≤ file.length) :
    readHeader file = (decodeHead (file.take 44), file.drop 44) := by
  simp [readHeader, readFixed, readFull, h]

theorem readHeader_short (file : List Byte) (h : file.length < 44) :
    readHeader file = (zeroHead, []) := by
  have h' : ¬ 44 ≤ file.length := by omega
  simp [readHeader, readFixed, readFull, h']

theorem drop_of_short (file : List Byte) (h : file.length < 44) : file.drop 44 = [] :=
  List.drop_eq_nil_of_le (by omega)

theorem magic_long (file : List Byte) (h : 44 ≤ file.length) :
    (decodeHead (file.take 44)).Magic =
      (file.getD 0 0, file.getD 1 0, file.getD 2 0, file.getD 3 0) := by
  match file, h with
  | b0 :: b1 :: b2 :: b3 :: rest, _ => simp [decodeHead]

theorem take4_eq_magic_iff (file : List Byte) (h : 4 ≤ file.length) :
    file.take 4 = magicTZif ↔
      file.getD 0 0 = 84 ∧ file.getD 1 0 = 90 ∧ file.getD 2 0 = 105 ∧ file.getD 3 0 = 102 := by
  match file, h with
  | b0 :: b1 :: b2 :: b3 :: rest, _ => simp [magicTZif]

/-- Claim C1. A stream whose first four bytes are not `TZif` (streams shorter
than four bytes included) makes `toLua` return the empty slice together with the
error `magic != TZif`; only the header read has consumed bytes by then: what is
left unread is the stream without its first 44 bytes. -/
theorem toLua_magic_mismatch (path file : List Byte) (h : file.take 4 ≠ magicTZif) :
    toLua path file = Result.error [] "magic != TZif" ∧
      toLuaRun path file = (Result.error [] "magic != TZif", file.drop 44) := by
  have key : toLuaRun path file = (Result.error [] "magic != TZif", file.drop 44) := by
    by_cases hl : 44 ≤ file.length
    · have hm := magic_long file hl
      have hne := mt (take4_eq_magic_iff file (by omega)).mpr h
      unfold toLuaRun
      rw [readHeader_long file hl]
      simp only [hm]
      rw [if_pos]
      by_contra hc
      apply hne
      simp only [not_or, not_not] at hc
      exact hc
    · have hs : file.length < 44 := by omega
      unfold toLuaRun
      rw [readHeader_short file hs, drop_of_short file hs]
      simp [zeroHead]
  exact ⟨by rw [toLua, key], key⟩

/-- Claim C1 at the stream `GZif` followed by 40 zero bytes. -/
theorem toLua_magic_mismatch_witness :
    ([71, 90, 105, 102] ++ List.replicate 40 (0 : Byte)).take 4 ≠ magicTZif ∧
      toLua pathEST ([71, 90, 105, 102] ++ List.replicate 40 0) = Result.error [] "magic != TZif" ∧
      toLuaRun pathEST ([71, 90, 105, 102] ++ List.replicate 40 0) =
        (Result.error [] "magic != TZif", ([71, 90, 105, 102] ++ List.replicate 40 0).drop 44) :=
  ⟨by decide, toLua_magic_mismatch pathEST _ (by decide)⟩

/-! ## Reading: the sections in closed form -/

theorem getD_take_drop (r : List Byte) (j k m : Nat) (h : m < k) :
    ((r.drop j).take k).getD m 0 = r.getD (j + m) 0 := by
  simp [List.getD_eq_getElem?_getD, List.getElem?_take, List.getElem?_drop, h]

theorem u32At_take_drop (r : List Byte) (j k m : Nat) (h : m + 4 ≤ k) :
    u32At ((r.drop j).take k) m = u32At r (j + m) := by
  unfold u32At
  rw [getD_take_drop r j k m (by omega), getD_take_drop r j k (m + 1) (by omega),
    getD_take_drop r j k (m + 2) (by omega), getD_take_drop r j k (m + 3) (by omega)]
  simp only [Nat.add_assoc]

/-- A loop of `n` fixed-size reads: element `i` is decoded from its `k` bytes when
they are all there and is the zero value otherwise. -/
theorem readLoop_readFixed {α : Type} (k : Nat) (dec : List Byte → α) (zero : α) :
    ∀ (n : Nat) (acc : List α) (r : List Byte),
      readLoop (readFixed k dec zero) n acc r =
        (acc ++ (List.range n).map
          (fun i => if k * (i + 1) ≤ r.length then dec ((r.drop (k * i)).take k) else zero),
         r.drop (k * n)) := by
  intro n
  induction n with
  | zero => intro acc r; simp [readLoop]
  | succ n ih =>
    intro acc r
    rw [readLoop, List.range_succ_eq_map]
    by_cases hl : k ≤ r.length
    · have hrd : readFixed k dec zero r = (dec (r.take k), r.drop k) := by
        simp [readFixed, readFull, hl]
      rw [hrd]
      simp only []
      rw [ih]
      have e1 : ∀ i, (k * (i + 1) ≤ r.length - k) = (k * (i + 1 + 1) ≤ r.length) := by
        intro i
        apply propext
        constructor <;> intro h
        · rw [Nat.mul_add k (i + 1) 1]; omega
        · rw [Nat.mul_add k (i + 1) 1] at h; omega
      have e2 : ∀ i, (r.drop k).drop (k * i) = r.drop (k * (i + 1)) := by
        intro i
        rw [List.drop_drop, Nat.mul_add, Nat.mul_one, Nat.add_comm]
      have e3 : (r.drop k).drop (k * n) = r.drop (k * (n + 1)) := e2 n
      simp [e1, e2, e3, hl, List.map_map, Function.comp_def]
    · have hrd : readFixed k dec zero r = (zero, []) := by
        simp [readFixed, readFull, hl]
      rw [hrd]
      simp only []
      rw [ih]
      have e1 : ∀ i, ¬ k * (i + 1) ≤ r.length := by
        intro i h
        have : k ≤ k * (i + 1) := Nat.le_mul_of_pos_right k (by omega)
        omega
      have e0 : ∀ i, ¬ k * (i + 1) ≤ 0 := by
        intro i h
        have : k ≤ k * (i + 1) := Nat.le_mul_of_pos_right k (by omega)
        omega
      have e3 : r.drop (k * (n + 1)) = [] :=
        List.drop_eq_nil_of_le (by have := e1 n; omega)
      simp [e1, e0, e3, List.map_map, Function.comp_def]

theorem readLoop_length {α : Type} (k : Nat) (dec : List Byte → α) (zero : α)
    (n : Nat) (r : List Byte) : (readLoop (readFixed k dec zero) n [] r).1.length = n := by
  rw [readLoop_readFixed]; simp

theorem decodeBody_Header (hd : tzhead) (r0 : List Byte) : (decodeBody hd r0).1.Header = hd := rfl

theorem decodeBody_Times (hd : tzhead) (r0 : List Byte) :
    (decodeBody hd r0).1.Times =
      (List.range hd.TimeCount).map
        (fun i => if 4 * (i + 1) ≤ r0.length then u32At r0 (4 * i) else 0) := by
  have h : (decodeBody hd r0).1.Times = (readLoop readU32 hd.TimeCount [] r0).1 := rfl
  rw [h]
  unfold readU32
  rw [readLoop_readFixed]
  simp [u32At_take_drop]

theorem decodeBody_Types (hd : tzhead) (r0 : List Byte) :
    (decodeBody hd r0).1.Types =
      (List.range hd.TimeCount).map (fun i => r0.getD (4 * hd.TimeCount + i) 0) := by
  have h : (decodeBody hd r0).1.Types =
      (readLoop readU8 hd.TimeCount [] (readLoop readU32 hd.TimeCount [] r0).2).1 := rfl
  rw [h]
  unfold readU8 readU32
  rw [readLoop_readFixed, readLoop_readFixed]
  simp only [List.nil_append, Nat.one_mul]
  apply List.map_congr_left
  intro i _
  rw [getD_take_drop _ _ _ _ (by omega)]
  split
  · simp [List.getD_eq_getElem?_getD, List.getElem?_drop]
  · rename_i hlt
    simp only [List.length_drop] at hlt
    simp only [List.getD_eq_getElem?_getD]
    rw [List.getElem?_eq_none (by omega)]
    rfl

theorem decodeBody_Offsets_length (hd : tzhead) (r0 : List Byte) :
    (decodeBody hd r0).1.Offsets.length = hd.TypeCount := by
  have h : (decodeBody hd r0).1.Offsets =
      (readLoop readEntry hd.TypeCount []
        (readLoop readU8 hd.TimeCount [] (readLoop readU32 hd.TimeCount [] r0).2).2).1 := rfl
  rw [h]
  unfold readEntry
  exact readLoop_length _ _ _ _ _

theorem decodeBody_ZoneAbbrs_length (hd : tzhead) (r0 : List Byte) :
    (decodeBody hd r0).1.ZoneAbbrs.length = hd.CharCount := by
  have h : (decodeBody hd r0).1.ZoneAbbrs =
      (fileRead hd.CharCount (readLoop readEntry hd.TypeCount []
        (readLoop readU8 hd.TimeCount [] (readLoop readU32 hd.TimeCount [] r0).2).2).2).1 := rfl
  rw [h]
  simp only [fileRead, List.length_append, List.length_take, List.length_replicate]
  omega

/-- The header of the decoded model of a stream that holds 44 bytes. -/
theorem decode_Header (file : List Byte) (h : 44 ≤ file.length) :
    (decode file).Header = decodeHead (file.take 44) := by
  unfold decode; rw [readHeader_long file h]; rfl

theorem decodeHead_TimeCount (file : List Byte) :
    (decodeHead (file.take 44)).TimeCount = u32At file 32 := by
  have := u32At_take_drop file 0 44 32 (by omega)
  simpa [decodeHead] using this

theorem decodeHead_TypeCount (file : List Byte) :
    (decodeHead (file.take 44)).TypeCount = u32At file 36 := by
  have := u32At_take_drop file 0 44 36 (by omega)
  simpa [decodeHead] using this

theorem decodeHead_CharCount (file : List Byte) :
    (decodeHead (file.take 44)).CharCount = u32At file 40 := by
  have := u32At_take_drop file 0 44 40 (by omega)
  simpa [decodeHead] using this

theorem decode_Times_length (file : List Byte) :
    (decode file).Times.length = (decode file).Header.TimeCount := by
  unfold decode; rw [decodeBody_Times, decodeBody_Header]; simp

theorem decode_Types_length (file : List Byte) :
    (decode file).Types.length = (decode file).Header.TimeCount := by
  unfold decode; rw [decodeBody_Types, decodeBody_Header]; simp

theorem decode_Offsets_length (file : List Byte) :
    (decode file).Offsets.length = (decode file).Header.TypeCount := by
  unfold decode; rw [decodeBody_Offsets_length, decodeBody_Header]

theorem decode_ZoneAbbrs_length (file : List Byte) :
    (decode file).ZoneAbbrs.length = (decode file).Header.CharCount := by
  unfold decode; rw [decodeBody_ZoneAbbrs_length, decodeBody_Header]

/-- Transition time `i` of the decoded model: the big-endian value of its four
bytes when the stream holds them all, zero otherwise. -/
theorem decode_Times_getElem? (file : List Byte) (h : 44 ≤ file.length) (i : Nat)
    (hi : i < (decode file).Header.TimeCount) :
    (decode file).Times[i]? =
      some (if 44 + 4 * (i + 1) ≤ file.length then u32At file (44 + 4 * i) else 0) := by
  have hT : (decode file).Times = (List.range (decode file).Header.TimeCount).map
      (fun i => if 4 * (i + 1) ≤ (file.drop 44).length then u32At (file.drop 44) (4 * i) else 0) := by
    unfold decode; rw [readHeader_long file h, decodeBody_Times, decodeBody_Header]
  rw [hT, List.getElem?_map, List.getElem?_range hi]
  simp only [Option.map_some', List.length_drop]
  congr 1
  have hu : u32At (file.drop 44) (4 * i) = u32At file (44 + 4 * i) := by
    unfold u32At
    simp [List.getD_eq_getElem?_getD, List.getElem?_drop, Nat.add_assoc]
  rw [hu]
  by_cases hc : 44 + 4 * (i + 1) ≤ file.length
  · rw [if_pos hc, if_pos (by omega)]
  · rw [if_neg hc, if_neg (by omega)]

/-- Type index `i` of the decoded model: the byte of the stream at its place,
zero when the stream ends before it. -/
theorem decode_Types_getElem? (file : List Byte) (h : 44 ≤ file.length) (i : Nat)
    (hi : i < (decode file).Header.TimeCount) :
    (decode file).Types[i]? =
      some (file.getD (44 + 4 * (decode file).Header.TimeCount + i) 0) := by
  have hT : (decode file).Types = (List.range (decode file).Header.TimeCount).map
      (fun i => (file.drop 44).getD (4 * (decode file).Header.TimeCount + i) 0) := by
    unfold decode; rw [readHeader_long file h, decodeBody_Types, decodeBody_Header]
  rw [hT, List.getElem?_map, List.getElem?_range hi]
  simp [List.getD_eq_getElem?_getD, List.getElem?_drop, Nat.add_assoc]

/-! ## The abbreviation scan -/

theorem scanNul_eq_none_iff (l : List Byte) : scanNul l = none ↔ (0 : Byte) ∉ l := by
  induction l with
  | nil => simp [scanNul]
  | cons c cs ih =>
    by_cases hc : c = 0
    · simp [scanNul, hc]
    · have hc' : ¬ (0 : Byte) = c := fun h => hc h.symm
      simp [scanNul, hc, hc', ih]

theorem scanNul_eq_some_iff (l s : List Byte) :
    scanNul l = some s ↔ ∃ rest, l = s ++ 0 :: rest ∧ (0 : Byte) ∉ s := by
  induction l generalizing s with
  | nil => simp [scanNul]
  | cons c cs ih =>
    by_cases hc : c = 0
    · subst hc
      simp only [scanNul, if_true, Option.some.injEq]
      constructor
      · intro h; subst h; exact ⟨cs, by simp, by simp⟩
      · rintro ⟨rest, h1, h2⟩
        cases s with
        | nil => rfl
        | cons a s' =>
          simp only [List.cons_append, List.cons.injEq] at h1
          exact absurd (by simp [← h1.1]) h2
    · simp only [scanNul, if_neg hc, Option.map_eq_some']
      constructor
      · rintro ⟨s', h1, h2⟩
        obtain ⟨rest, h3, h4⟩ := (ih s').mp h1
        refine ⟨rest, by simp [← h2, h3], ?_⟩
        subst h2
        intro hmem
        rcases List.mem_cons.mp hmem with h | h
        · exact hc h.symm
        · exact h4 h
      · rintro ⟨rest, h1, h2⟩
        cases s with
        | nil =>
          simp only [List.nil_append, List.cons.injEq] at h1
          exact absurd h1.1 hc
        | cons a s' =>
          simp only [List.cons_append, List.cons.injEq] at h1
          refine ⟨s', (ih s').mpr ⟨rest, h1.2, fun hm => h2 (List.mem_cons_of_mem _ hm)⟩, ?_⟩
          rw [h1.1]

/-- The loop of `readZeroString` never runs out of fuel: with more rounds than
bytes left it does what a scan of the rest of the buffer does. -/
theorem readZeroStringLoop_eq (data : List Byte) :
    ∀ (fuel : Nat) (buf : List Byte) (offset : Nat), data.length < fuel + offset →
      readZeroStringLoop data fuel buf offset =
        (scanNul (data.drop offset)).map (fun s => buf ++ s) := by
  intro fuel
  induction fuel with
  | zero =>
    intro buf offset h
    rw [readZeroStringLoop, List.drop_eq_nil_of_le (by omega)]
    rfl
  | succ fuel ih =>
    intro buf offset h
    rw [readZeroStringLoop]
    by_cases ho : offset < data.length
    · rw [List.getElem?_eq_getElem ho, List.drop_eq_getElem_cons ho]
      simp only [scanNul]
      by_cases hc : data[offset] = 0
      · simp [hc]
      · rw [if_neg hc, if_neg hc, ih _ _ (by omega)]
        cases scanNul (data.drop (offset + 1)) <;> simp
    · rw [List.getElem?_eq_none (by omega), List.drop_eq_nil_of_le (by omega)]
      rfl

theorem readZeroString_eq (data : List Byte) (offset : Nat) :
    readZeroString data offset = scanNul (data.drop offset) := by
  unfold readZeroString
  rw [readZeroStringLoop_eq data _ _ _ (by omega)]
  cases scanNul (data.drop offset) <;> simp

theorem mem_drop_iff_hasNulFrom (data : List Byte) (offset : Nat) :
    (0 : Byte) ∈ data.drop offset ↔ HasNulFrom data offset := by
  unfold HasNulFrom
  constructor
  · intro h
    obtain ⟨n, hn, h0⟩ := List.getElem_of_mem h
    rw [List.length_drop] at hn
    refine ⟨offset + n, by omega, by omega, ?_⟩
    rw [← List.getElem?_drop, List.getElem?_eq_getElem (by rw [List.length_drop]; omega), h0]
  · rintro ⟨k, hk, hok, h0⟩
    have : (data.drop offset)[k - offset]? = some 0 := by
      rw [List.getElem?_drop]
      rw [show offset + (k - offset) = k by omega]
      exact h0
    exact List.getElem?_mem this

/-- The scan panics exactly when no zero byte follows. -/
theorem readZeroString_eq_none_iff (data : List Byte) (offset : Nat) :
    readZeroString data offset = none ↔ ¬ HasNulFrom data offset := by
  rw [readZeroString_eq, scanNul_eq_none_iff, mem_drop_iff_hasNulFrom]

theorem readZeroString_isSome (data : List Byte) (offset : Nat) (h : HasNulFrom data offset) :
    ∃ s, readZeroString data offset = some s := by
  cases hr : readZeroString data offset with
  | none => exact absurd h ((readZeroString_eq_none_iff data offset).mp hr)
  | some s => exact ⟨s, rfl⟩

/-! ## The rendering loop -/

theorem rowAt_eq_some_iff (t : tz) (i : Nat) (row : List Byte) :
    rowAt t i = some row ↔
      ∃ tt ty o abbr, t.Times[i]? = some tt ∧ t.Types[i]? = some ty ∧
        t.Offsets[ty.val]? = some o ∧
        readZeroString t.ZoneAbbrs o.AbbrIndex.val = some abbr ∧
        row = rowText tt o.IsDST abbr o.Offset := by
  unfold rowAt
  cases h1 : t.Times[i]? with
  | none => simp
  | some tt =>
    cases h2 : t.Types[i]? with
    | none => simp
    | some ty =>
      cases h3 : t.Offsets[ty.val]? with
      | none => simp [h3]
      | some o =>
        cases h4 : readZeroString t.ZoneAbbrs o.AbbrIndex.val with
        | none => simp [h3, h4]
        | some abbr =>
          simp only [h3, h4, Option.some.injEq]
          constructor
          · intro h; exact ⟨tt, ty, o, abbr, rfl, rfl, h3, h4, h.symm⟩
          · rintro ⟨tt', ty', o', abbr', e1, e2, e3, e4, e5⟩
            subst e1; subst e2
            rw [h3] at e3
            cases e3
            rw [h4] at e4
            cases e4
            exact e5.symm

theorem ToLuaLoop_eq_none_iff (t : tz) :
    ∀ (n i : Nat) (buf : List Byte),
      ToLuaLoop t n i buf = none ↔ ∃ j, j < n ∧ rowAt t (i + j) = none := by
  intro n
  induction n with
  | zero => intro i buf; simp [ToLuaLoop]
  | succ n ih =>
    intro i buf
    rw [ToLuaLoop]
    cases hr : rowAt t i with
    | none => simp only [true_iff]; exact ⟨0, by omega, hr⟩
    | some row =>
      simp only [ih]
      constructor
      · rintro ⟨j, hj, h⟩
        exact ⟨j + 1, by omega, by rw [← h]; congr 1; omega⟩
      · rintro ⟨j, hj, h⟩
        cases j with
        | zero => rw [Nat.add_zero, hr] at h; cases h
        | succ j => exact ⟨j, by omega, by rw [← h]; congr 1; omega⟩

theorem ToLuaLoop_eq_some_iff (t : tz) :
    ∀ (n i : Nat) (buf out : List Byte),
      ToLuaLoop t n i buf = some out ↔
        ∃ rows : List (List Byte), rows.length = n ∧
          (∀ j, j < n → rowAt t (i + j) = rows[j]?) ∧ out = buf ++ rows.flatten := by
  intro n
  induction n with
  | zero =>
    intro i buf out
    simp only [ToLuaLoop, Option.some.injEq]
    constructor
    · intro h; exact ⟨[], rfl, by intro j hj; omega, by simp [h]⟩
    · rintro ⟨rows, hl, -, ho⟩
      rw [List.length_eq_zero.mp hl] at ho
      simp [ho]
  | succ n ih =>
    intro i buf out
    rw [ToLuaLoop]
    cases hr : rowAt t i with
    | none =>
      refine ⟨fun h => (nomatch h), ?_⟩
      rintro ⟨rows, hl, hrows, -⟩
      have h0 := hrows 0 (by omega)
      rw [Nat.add_zero, hr] at h0
      rw [List.getElem?_eq_getElem (by omega)] at h0
      cases h0
    | some row =>
      simp only [ih]
      constructor
      · rintro ⟨rows, hl, hrows, ho⟩
        refine ⟨row :: rows, by simp [hl], ?_, by simp [ho]⟩
        intro j hj
        cases j with
        | zero => simpa using hr
        | succ j =>
          have := hrows j (by omega)
          rw [List.getElem?_cons_succ, ← this]
          congr 1; omega
      · rintro ⟨rows, hl, hrows, ho⟩
        cases rows with
        | nil => simp at hl
        | cons r rows =>
          have h0 := hrows 0 (by omega)
          rw [Nat.add_zero, hr] at h0
          simp only [List.getElem?_cons_zero, Option.some.injEq] at h0
          subst h0
          refine ⟨rows, by simpa using hl, ?_, by simp [ho]⟩
          intro j hj
          have := hrows (j + 1) (by omega)
          rw [List.getElem?_cons_succ] at this
          rw [← this]
          congr 1; omega

/-- The method returns exactly when every round of its loop finds its row, and
then the output is the header line, the rows in loop order, the closing line. -/
theorem ToLua_eq_some_iff (t : tz) (z out : List Byte) :
    t.ToLua z = some out ↔
      ∃ rows : List (List Byte), rows.length = t.Header.TimeCount ∧
        (∀ j, j < t.Header.TimeCount → rowAt t j = rows[j]?) ∧
        out = headerLine z ++ rows.flatten ++ closingLine := by
  unfold tz.ToLua
  cases hl : ToLuaLoop t t.Header.TimeCount 0 (headerLine z) with
  | none =>
    refine ⟨fun h => (nomatch h), ?_⟩
    rintro ⟨rows, h1, h2, -⟩
    have := (ToLuaLoop_eq_some_iff t t.Header.TimeCount 0 (headerLine z)
      (headerLine z ++ rows.flatten)).mpr ⟨rows, h1, by simpa using h2, rfl⟩
    rw [hl] at this
    cases this
  | some buf =>
    obtain ⟨rows, h1, h2, h3⟩ := (ToLuaLoop_eq_some_iff t _ _ _ _).mp hl
    simp only [Option.some.injEq]
    constructor
    · intro h; exact ⟨rows, h1, by simpa using h2, by rw [← h, h3]⟩
    · rintro ⟨rows', h1', h2', h3'⟩
      have hrows : rows' = rows := by
        apply List.ext_getElem? 
        intro j
        by_cases hj : j < t.Header.TimeCount
        · rw [← h2' j hj, ← h2 j hj]; simp
        · rw [List.getElem?_eq_none (by omega), List.getElem?_eq_none (by omega)]
      rw [h3', hrows, h3]

/-- The method panics exactly when some round of its loop does. -/
theorem ToLua_eq_none_iff (t : tz) (z : List Byte) :
    t.ToLua z = none ↔ ∃ j, j < t.Header.TimeCount ∧ rowAt t j = none := by
  unfold tz.ToLua
  cases hl : ToLuaLoop t t.Header.TimeCount 0 (headerLine z) with
  | none =>
    simp only [true_iff]
    simpa using (ToLuaLoop_eq_none_iff t _ _ _).mp hl
  | some buf =>
    refine ⟨fun h => (nomatch h), ?_⟩
    intro h
    have := (ToLuaLoop_eq_none_iff t t.Header.TimeCount 0 (headerLine z)).mpr
      (by simpa using h)
    rw [hl] at this
    cases this

/-- After a whole header with the right magic, `toLua` is the renderer applied to
the decoded model: a panic of the renderer, or its output with a nil error. -/
theorem toLua_of_validHeader (path file : List Byte) (h : ValidHeader file) :
    toLua path file =
      match (decode file).ToLua (stripPath path) with
      | none => Result.panic
      | some out => Result.ok out := by
  obtain ⟨hl, hm⟩ := h
  have hmag := magic_long file hl
  obtain ⟨m0, m1, m2, m3⟩ := (take4_eq_magic_iff file (by omega)).mp hm
  unfold toLua toLuaRun decode
  rw [readHeader_long file hl]
  simp only [hmag, m0, m1, m2, m3]
  simp only [ne_eq, not_true_eq_false, or_self, if_false]
  cases (decodeBody (decodeHead (file.take 44)) (file.drop 44)).1.ToLua (stripPath path) <;> rfl

/-! ## Streams that end early -/

/-- Claim C2, refuted at its own example: the header declares 10 transition
times, 4 follow and the stream ends; `toLua` returns ten rows and a nil error. -/
theorem toLua_truncated_counterexample :
    ValidHeader truncated10 ∧ truncated10.length = 60 ∧
      declaredLength (decode truncated10).Header = 101 ∧
      toLua pathEST truncated10 = Result.ok (ascii
        ("\x7b version = \"2018g\", zone = \"EST\",\n" ++
         "  \x7bts=1, dst=false, name=\"\", ut_offset=0\x7d,\n" ++
         "  \x7bts=2, dst=false, name=\"\", ut_offset=0\x7d,\n" ++
         "  \x7bts=3, dst=false, name=\"\", ut_offset=0\x7d,\n" ++
         "  \x7bts=4, dst=false, name=\"\", ut_offset=0\x7d,\n" ++
         "  \x7bts=0, dst=false, name=\"\", ut_offset=0\x7d,\n" ++
         "  \x7bts=0, dst=false, name=\"\", ut_offset=0\x7d,\n" ++
         "  \x7bts=0, dst=false, name=\"\", ut_offset=0\x7d,\n" ++
         "  \x7bts=0, dst=false, name=\"\", ut_offset=0\x7d,\n" ++
         "  \x7bts=0, dst=false, name=\"\", ut_offset=0\x7d,\n" ++
         "  \x7bts=0, dst=false, name=\"\", ut_offset=0\x7d,\n" ++
         "\x7d\n")) := by
  decide

/-- Claim C2 as amended. After a whole header with magic `TZif`, a stream draws
no error from `toLua`, also when it ends before the declared counts are met: the result
is the renderer applied to the decoded model (its output with a nil error, or
its panic), that model has as many transition times as the header declares, and
every transition time the stream does not hold in full is zero. -/
theorem toLua_truncated (path file : List Byte) (h : ValidHeader file) :
    (∀ out msg, toLua path file ≠ Result.error out msg) ∧
      (toLua path file = Result.panic ∨
        ∃ out, (decode file).ToLua (stripPath path) = some out ∧ toLua path file = Result.ok out) ∧
      (decode file).Times.length = (decode file).Header.TimeCount ∧
      ∀ i, i < (decode file).Header.TimeCount → file.length < 44 + 4 * (i + 1) →
        (decode file).Times[i]? = some 0 := by
  have hto := toLua_of_validHeader path file h
  refine ⟨?_, ?_, decode_Times_length file, ?_⟩
  · intro out msg
    rw [hto]
    cases (decode file).ToLua (stripPath path) <;> simp
  · rw [hto]
    cases (decode file).ToLua (stripPath path) <;> simp
  · intro i hi hlt
    rw [decode_Times_getElem? file h.1 i hi, if_neg (by omega)]

/-- Claim C2 as amended, at the stream of 60 bytes that declares 101. -/
theorem toLua_truncated_witness :
    ValidHeader truncated10 ∧ truncated10.length < declaredLength (decode truncated10).Header ∧
      (∀ out msg, toLua pathEST truncated10 ≠ Result.error out msg) ∧
      (toLua pathEST truncated10 = Result.panic ∨
        ∃ out, (decode truncated10).ToLua (stripPath pathEST) = some out ∧
          toLua pathEST truncated10 = Result.ok out) ∧
      (decode truncated10).Times.length = (decode truncated10).Header.TimeCount ∧
      ∀ i, i < (decode truncated10).Header.TimeCount → truncated10.length < 44 + 4 * (i + 1) →
        (decode truncated10).Times[i]? = some 0 :=
  ⟨by decide, by decide, toLua_truncated pathEST truncated10 (by decide)⟩

/-! ## Indices out of range -/

theorem rowAt_none_of_type_index (t : tz) (i : Nat) (ty : Byte) (h1 : t.Types[i]? = some ty)
    (h2 : t.Offsets.length ≤ ty.val) : rowAt t i = none := by
  unfold rowAt
  cases t.Times[i]? with
  | none => rfl
  | some tt =>
    simp only [h1]
    rw [List.getElem?_eq_none h2]

theorem rowAt_none_of_no_nul (t : tz) (i : Nat) (ty : Byte) (o : tzentry)
    (h1 : t.Types[i]? = some ty) (h2 : t.Offsets[ty.val]? = some o)
    (h3 : ¬ HasNulFrom t.ZoneAbbrs o.AbbrIndex.val) : rowAt t i = none := by
  unfold rowAt
  cases t.Times[i]? with
  | none => rfl
  | some tt =>
    simp only [h1, h2]
    rw [(readZeroString_eq_none_iff _ _).mpr h3]

theorem toLua_panic_of_rowAt_none (path file : List Byte) (h : ValidHeader file) (i : Nat)
    (hi : i < (decode file).Header.TimeCount) (hr : rowAt (decode file) i = none) :
    toLua path file = Result.panic := by
  rw [toLua_of_validHeader path file h,
    (ToLua_eq_none_iff (decode file) (stripPath path)).mpr ⟨i, hi, hr⟩]

theorem rows_of_toLua_ok (path file out : List Byte) (h : ValidHeader file)
    (hok : toLua path file = Result.ok out) (i : Nat) (hi : i < (decode file).Header.TimeCount) :
    ∃ row, rowAt (decode file) i = some row := by
  rw [toLua_of_validHeader path file h] at hok
  cases hT : (decode file).ToLua (stripPath path) with
  | none => rw [hT] at hok; cases hok
  | some o =>
    obtain ⟨rows, hl, hrows, -⟩ := (ToLua_eq_some_iff _ _ _).mp hT
    exact ⟨rows[i], by rw [hrows i hi, List.getElem?_eq_getElem (by omega)]⟩

/-- Claim C3, refuted: the stream has magic `TZif`, one transition and one type
record, and its type index byte is 1; `toLua` returns no error, it panics. -/
theorem toLua_type_index_counterexample :
    ValidHeader badTypeIndex ∧ (decode badTypeIndex).Header.TimeCount = 1 ∧
      (decode badTypeIndex).Header.TypeCount = 1 ∧ badTypeIndex[48]? = some 1 ∧
      toLua pathEST badTypeIndex = Result.panic ∧
      ¬ ∃ out msg, toLua pathEST badTypeIndex = Result.error out msg := by
  have hp : toLua pathEST badTypeIndex = Result.panic := by decide
  refine ⟨by decide, by decide, by decide, by decide, hp, ?_⟩
  rintro ⟨out, msg, he⟩
  rw [hp] at he
  cases he

/-- Claim C3 as amended. After a whole header with magic `TZif`, a transition
type index byte at or above the header's TypeCount makes the renderer panic on
its index expression, so `toLua` returns neither output nor an error value; and
whenever `toLua` returns successfully every `Types[i]`, `i < TimeCount`, is
below TypeCount. -/
theorem toLua_type_index_out_of_range (path file : List Byte) (h : ValidHeader file) :
    ((∃ i b, i < (decode file).Header.TimeCount ∧
        file[44 + 4 * (decode file).Header.TimeCount + i]? = some b ∧
        (decode file).Header.TypeCount ≤ b.val) → toLua path file = Result.panic) ∧
      (∀ out, toLua path file = Result.ok out →
        ∀ i, i < (decode file).Header.TimeCount →
          ∃ ty, (decode file).Types[i]? = some ty ∧ ty.val < (decode file).Header.TypeCount) := by
  constructor
  · rintro ⟨i, b, hi, hb, hge⟩
    have hty := decode_Types_getElem? file h.1 i hi
    rw [List.getD_eq_getElem?_getD, hb, Option.getD_some] at hty
    exact toLua_panic_of_rowAt_none path file h i hi
      (rowAt_none_of_type_index _ i b hty (by rw [decode_Offsets_length]; exact hge))
  · intro out hok i hi
    obtain ⟨row, hrow⟩ := rows_of_toLua_ok path file out h hok i hi
    obtain ⟨tt, ty, o, abbr, -, h2, h3, -, -⟩ := (rowAt_eq_some_iff _ _ _).mp hrow
    refine ⟨ty, h2, ?_⟩
    have hlt : ty.val < (decode file).Offsets.length := by
      by_contra hc
      rw [List.getElem?_eq_none (by omega)] at h3
      cases h3
    rwa [decode_Offsets_length] at hlt

/-- Claim C3 as amended, at the stream with type index 1 of 1 type record (it
panics) and at the scenario stream (it returns, its one type index is 0). -/
theorem toLua_type_index_out_of_range_witness :
    toLua pathEST badTypeIndex = Result.panic ∧
      ∀ i, i < (decode scenarioEST).Header.TimeCount →
        ∃ ty, (decode scenarioEST).Types[i]? = some ty ∧
          ty.val < (decode scenarioEST).Header.TypeCount :=
  ⟨(toLua_type_index_out_of_range pathEST badTypeIndex (by decide)).1
      ⟨0, 1, by decide, by decide, by decide⟩,
    (toLua_type_index_out_of_range pathEST scenarioEST (by decide)).2
      (headerLine (ascii "EST") ++ rowText 1000 false (ascii "EST") 4294949296 ++ closingLine)
      (by decide)⟩

/-- Claim C4, refuted: the selected type record has abbreviation index 0 and the
four abbreviation bytes `ESTX` hold no zero byte; `toLua` returns no error, it
panics when the scan leaves the buffer. -/
theorem toLua_abbreviation_counterexample :
    ValidHeader unterminatedAbbr ∧ (decode unterminatedAbbr).ZoneAbbrs = [69, 83, 84, 88] ∧
      (decode unterminatedAbbr).Types = [0] ∧
      (decode unterminatedAbbr).Offsets = [{ Offset := 4294949296, IsDST := false, AbbrIndex := 0 }] ∧
      toLua pathEST unterminatedAbbr = Result.panic ∧
      ¬ ∃ out msg, toLua pathEST unterminatedAbbr = Result.error out msg := by
  have hp : toLua pathEST unterminatedAbbr = Result.panic := by decide
  refine ⟨by decide, by decide, by decide, by decide, hp, ?_⟩
  rintro ⟨out, msg, he⟩
  rw [hp] at he
  cases he

/-- Claim C4 as amended. After a whole header with magic `TZif`, when the type
record selected by some transition has an abbreviation index at or above
CharCount, or one from which no zero byte follows in the abbreviation buffer,
the scan panics on its index expression: `toLua` returns neither an error value
nor any output, so no truncated or wrapped abbreviation is emitted. -/
theorem toLua_abbreviation_unterminated (path file : List Byte) (h : ValidHeader file)
    (hbad : ∃ i ty o, i < (decode file).Header.TimeCount ∧ (decode file).Types[i]? = some ty ∧
      (decode file).Offsets[ty.val]? = some o ∧
      ((decode file).Header.CharCount ≤ o.AbbrIndex.val ∨
        ¬ HasNulFrom (decode file).ZoneAbbrs o.AbbrIndex.val)) :
    toLua path file = Result.panic ∧ (∀ out, toLua path file ≠ Result.ok out) ∧
      ∀ out msg, toLua path file ≠ Result.error out msg := by
  obtain ⟨i, ty, o, hi, h1, h2, h3⟩ := hbad
  have hno : ¬ HasNulFrom (decode file).ZoneAbbrs o.AbbrIndex.val := by
    rcases h3 with h3 | h3
    · rintro ⟨k, hk, hok, -⟩
      rw [decode_ZoneAbbrs_length] at hk
      omega
    · exact h3
  have hp := toLua_panic_of_rowAt_none path file h i hi (rowAt_none_of_no_nul _ i ty o h1 h2 hno)
  rw [hp]
  exact ⟨rfl, fun _ hc => Result.noConfusion hc, fun _ _ hc => Result.noConfusion hc⟩

/-- Claim C4 as amended, at the stream whose abbreviation bytes are `ESTX`. -/
theorem toLua_abbreviation_unterminated_witness :
    (∃ i ty o, i < (decode unterminatedAbbr).Header.TimeCount ∧
      (decode unterminatedAbbr).Types[i]? = some ty ∧
      (decode unterminatedAbbr).Offsets[ty.val]? = some o ∧
      ((decode unterminatedAbbr).Header.CharCount ≤ o.AbbrIndex.val ∨
        ¬ HasNulFrom (decode unterminatedAbbr).ZoneAbbrs o.AbbrIndex.val)) ∧
      toLua pathEST unterminatedAbbr = Result.panic ∧
      (∀ out, toLua pathEST unterminatedAbbr ≠ Result.ok out) ∧
      ∀ out msg, toLua pathEST unterminatedAbbr ≠ Result.error out msg :=
  ⟨⟨0, 0, { Offset := 4294949296, IsDST := false, AbbrIndex := 0 }, by decide, by decide,
      by decide, Or.inr (by decide)⟩,
    toLua_abbreviation_unterminated pathEST unterminatedAbbr (by decide)
      ⟨0, 0, { Offset := 4294949296, IsDST := false, AbbrIndex := 0 }, by decide, by decide,
        by decide, Or.inr (by decide)⟩⟩

/-! ## Well-formed models -/

theorem rowAt_of_validRow (t : tz) (i : Nat) (hi : i < t.Times.length) (hv : ValidRow t i) :
    ∃ tt ty o abbr, t.Times[i]? = some tt ∧ t.Types[i]? = some ty ∧
      t.Offsets[ty.val]? = some o ∧
      readZeroString t.ZoneAbbrs o.AbbrIndex.val = some abbr ∧
      rowAt t i = some (rowText tt o.IsDST abbr o.Offset) := by
  obtain ⟨ty, hty, o, ho, hn⟩ := hv
  obtain ⟨abbr, ha⟩ := readZeroString_isSome _ _ hn
  have h1 : t.Times[i]? = some t.Times[i] := List.getElem?_eq_getElem hi
  have h2 : t.Types[i]? = some ty := hty
  have h3 : t.Offsets[ty.val]? = some o := ho
  exact ⟨t.Times[i], ty, o, abbr, h1, h2, h3, ha,
    (rowAt_eq_some_iff _ _ _).mpr ⟨_, _, _, _, h1, h2, h3, ha, rfl⟩⟩

/-- On a well-formed model the method returns: the header line, one row for
each index below TimeCount in order, the closing line; row `i` is made of
`Times[i]` and of the type record `Offsets[Types[i]]`. -/
theorem ToLua_of_wellFormed (t : tz) (hw : WellFormed t) :
    ∃ rows : List (List Byte), rows.length = t.Header.TimeCount ∧
      (∀ z, t.ToLua z = some (headerLine z ++ rows.flatten ++ closingLine)) ∧
      ∀ i, i < t.Header.TimeCount →
        ∃ tt ty o abbr, t.Times[i]? = some tt ∧ t.Types[i]? = some ty ∧
          t.Offsets[ty.val]? = some o ∧
          readZeroString t.ZoneAbbrs o.AbbrIndex.val = some abbr ∧
          rows[i]? = some (rowText tt o.IsDST abbr o.Offset) := by
  obtain ⟨h1, h2, h3⟩ := hw
  have hrow : ∀ i, i < t.Header.TimeCount → ∃ row, rowAt t i = some row := by
    intro i hi
    obtain ⟨tt, ty, o, abbr, -, -, -, -, hr⟩ := rowAt_of_validRow t i (by omega) (h3 i hi)
    exact ⟨_, hr⟩
  cases hT : t.ToLua [] with
  | none =>
    obtain ⟨j, hj, hn⟩ := (ToLua_eq_none_iff t []).mp hT
    obtain ⟨row, hr⟩ := hrow j hj
    rw [hr] at hn
    cases hn
  | some out =>
    obtain ⟨rows, hl, hrows, -⟩ := (ToLua_eq_some_iff t [] out).mp hT
    refine ⟨rows, hl, ?_, ?_⟩
    · intro z
      exact (ToLua_eq_some_iff t z _).mpr ⟨rows, hl, hrows, rfl⟩
    · intro i hi
      obtain ⟨tt, ty, o, abbr, e1, e2, e3, e4, hr⟩ := rowAt_of_validRow t i (by omega) (h3 i hi)
      exact ⟨tt, ty, o, abbr, e1, e2, e3, e4, by rw [← hrows i hi, hr]⟩

/-- Claim C5. For a stream with a whole `TZif` header whose decoded model is
well formed, the output of `ToLua` is the header line, then exactly TimeCount
rows (TimeCount being the count stored at bytes 32 to 35 of the header), then
the closing line: there is one row for each index `i < TimeCount`, in order, and
row `i` is the text the row format gives for `Times[i]`, the type record
`Offsets[Types[i]]` and the abbreviation scanned at its `AbbrIndex`, nothing
else standing between the header line and the closing line; with TimeCount = 0
the header line is followed at once by the closing line. `toLua` returns that
output with a nil error. -/
theorem ToLua_row_count (file : List Byte) (h : ValidHeader file)
    (hw : WellFormed (decode file)) :
    ∃ rows : List (List Byte),
      rows.length = (decode file).Header.TimeCount ∧
      (decode file).Header.TimeCount = u32At file 32 ∧
      (∀ i, i < (decode file).Header.TimeCount →
        ∃ tt ty o abbr, (decode file).Times[i]? = some tt ∧
          (decode file).Types[i]? = some ty ∧ (decode file).Offsets[ty.val]? = some o ∧
          readZeroString (decode file).ZoneAbbrs o.AbbrIndex.val = some abbr ∧
          rows[i]? = some (rowText tt o.IsDST abbr o.Offset)) ∧
      (∀ r, r ∈ rows → ∃ tt dst abbr off, r = rowText tt dst abbr off) ∧
      (∀ z, (decode file).ToLua z = some (headerLine z ++ rows.flatten ++ closingLine)) ∧
      (∀ path, toLua path file =
        Result.ok (headerLine (stripPath path) ++ rows.flatten ++ closingLine)) ∧
      ((decode file).Header.TimeCount = 0 →
        ∀ z, (decode file).ToLua z = some (headerLine z ++ closingLine)) := by
  obtain ⟨rows, hl, hT, hrows⟩ := ToLua_of_wellFormed (decode file) hw
  refine ⟨rows, hl, ?_, hrows, ?_, hT, ?_, ?_⟩
  · rw [decode_Header file h.1, decodeHead_TimeCount]
  · intro r hr
    obtain ⟨i, hi, rfl⟩ := List.getElem_of_mem hr
    obtain ⟨tt, ty, o, abbr, -, -, -, -, e⟩ := hrows i (by omega)
    rw [List.getElem?_eq_getElem hi] at e
    exact ⟨tt, o.IsDST, abbr, o.Offset, Option.some.inj e⟩
  · intro path
    rw [toLua_of_validHeader path file h, hT]
  · intro h0 z
    rw [hT z]
    have : rows = [] := List.length_eq_zero.mp (by rw [hl, h0])
    simp [this]

/-- Claim C5 at the scenario stream, which declares one transition. -/
theorem ToLua_row_count_witness :
    ValidHeader scenarioEST ∧ WellFormed (decode scenarioEST) ∧
    ∃ rows : List (List Byte),
      rows.length = (decode scenarioEST).Header.TimeCount ∧
      (decode scenarioEST).Header.TimeCount = u32At scenarioEST 32 ∧
      (∀ i, i < (decode scenarioEST).Header.TimeCount →
        ∃ tt ty o abbr, (decode scenarioEST).Times[i]? = some tt ∧
          (decode scenarioEST).Types[i]? = some ty ∧
          (decode scenarioEST).Offsets[ty.val]? = some o ∧
          readZeroString (decode scenarioEST).ZoneAbbrs o.AbbrIndex.val = some abbr ∧
          rows[i]? = some (rowText tt o.IsDST abbr o.Offset)) ∧
      (∀ r, r ∈ rows → ∃ tt dst abbr off, r = rowText tt dst abbr off) ∧
      (∀ z, (decode scenarioEST).ToLua z = some (headerLine z ++ rows.flatten ++ closingLine)) ∧
      (∀ path, toLua path scenarioEST =
        Result.ok (headerLine (stripPath path) ++ rows.flatten ++ closingLine)) ∧
      ((decode scenarioEST).Header.TimeCount = 0 →
        ∀ z, (decode scenarioEST).ToLua z = some (headerLine z ++ closingLine)) :=
  ⟨by decide, by decide, ToLua_row_count scenarioEST (by decide) (by decide)⟩

/-- Claim C6. On a well-formed model, for every `i < TimeCount`, row `i` of the
output prints after `dst=` the flag `IsDST` and after `ut_offset=` the field
`Offset` of the type record `Offsets[Types[i]]`. -/
theorem ToLua_row_type_record (t : tz) (hw : WellFormed t) :
    ∃ rows : List (List Byte), rows.length = t.Header.TimeCount ∧
      (∀ z, t.ToLua z = some (headerLine z ++ rows.flatten ++ closingLine)) ∧
      ∀ i, i < t.Header.TimeCount →
        ∃ ty o tt abbr, t.Types[i]? = some ty ∧ t.Offsets[ty.val]? = some o ∧
          t.Times[i]? = some tt ∧
          readZeroString t.ZoneAbbrs o.AbbrIndex.val = some abbr ∧
          rows[i]? = some (ascii "  \x7bts=" ++ fmtUint tt ++ ascii ", dst=" ++ fmtBool o.IsDST
            ++ ascii ", name=\"" ++ abbr ++ ascii "\", ut_offset=" ++ fmtUint o.Offset
            ++ ascii "\x7d,\n") := by
  obtain ⟨rows, hl, hT, hrows⟩ := ToLua_of_wellFormed t hw
  refine ⟨rows, hl, hT, ?_⟩
  intro i hi
  obtain ⟨tt, ty, o, abbr, e1, e2, e3, e4, e⟩ := hrows i hi
  exact ⟨ty, o, tt, abbr, e2, e3, e1, e4, e⟩

/-- Claim C6 at the decoded model of the scenario stream. -/
theorem ToLua_row_type_record_witness :
    WellFormed (decode scenarioEST) ∧
    ∃ rows : List (List Byte), rows.length = (decode scenarioEST).Header.TimeCount ∧
      (∀ z, (decode scenarioEST).ToLua z = some (headerLine z ++ rows.flatten ++ closingLine)) ∧
      ∀ i, i < (decode scenarioEST).Header.TimeCount →
        ∃ ty o tt abbr, (decode scenarioEST).Types[i]? = some ty ∧
          (decode scenarioEST).Offsets[ty.val]? = some o ∧
          (decode scenarioEST).Times[i]? = some tt ∧
          readZeroString (decode scenarioEST).ZoneAbbrs o.AbbrIndex.val = some abbr ∧
          rows[i]? = some (ascii "  \x7bts=" ++ fmtUint tt ++ ascii ", dst=" ++ fmtBool o.IsDST
            ++ ascii ", name=\"" ++ abbr ++ ascii "\", ut_offset=" ++ fmtUint o.Offset
            ++ ascii "\x7d,\n") :=
  ⟨by decide, ToLua_row_type_record (decode scenarioEST) (by decide)⟩

/-- Claim C7. For a stream with a whole `TZif` header whose decoded model is
well formed, rows come in storage order: for every `i < TimeCount`, row `i`
prints after `ts=` the transition time `Times[i]`, which is the big-endian value
of the four bytes at offset `44 + 4 * i` of the stream when they are all there
(zero for a time the stream is too short to hold); the times are not sorted. -/
theorem ToLua_row_order (file : List Byte) (h : ValidHeader file)
    (hw : WellFormed (decode file)) :
    ∃ rows : List (List Byte), rows.length = (decode file).Header.TimeCount ∧
      (∀ z, (decode file).ToLua z = some (headerLine z ++ rows.flatten ++ closingLine)) ∧
      ∀ i, i < (decode file).Header.TimeCount →
        ∃ tt ty o abbr, (decode file).Times[i]? = some tt ∧
          (decode file).Types[i]? = some ty ∧ (decode file).Offsets[ty.val]? = some o ∧
          readZeroString (decode file).ZoneAbbrs o.AbbrIndex.val = some abbr ∧
          rows[i]? = some (rowText tt o.IsDST abbr o.Offset) ∧
          (44 + 4 * (i + 1) ≤ file.length → tt = u32At file (44 + 4 * i)) ∧
          (file.length < 44 + 4 * (i + 1) → tt = 0) := by
  obtain ⟨rows, hl, hT, hrows⟩ := ToLua_of_wellFormed (decode file) hw
  refine ⟨rows, hl, hT, ?_⟩
  intro i hi
  obtain ⟨tt, ty, o, abbr, e1, e2, e3, e4, e⟩ := hrows i hi
  have ht := decode_Times_getElem? file h.1 i hi
  rw [e1] at ht
  have ht' := Option.some.inj ht
  refine ⟨tt, ty, o, abbr, e1, e2, e3, e4, e, ?_, ?_⟩
  · intro hc; rw [ht', if_pos hc]
  · intro hc; rw [ht', if_neg (by omega)]

/-- Claim C7 at a stream whose stored times are 2000 then 1000. -/
theorem ToLua_row_order_witness :
    ValidHeader nonMonotonic ∧ WellFormed (decode nonMonotonic) ∧
    u32At nonMonotonic 44 = 2000 ∧ u32At nonMonotonic 48 = 1000 ∧
    ∃ rows : List (List Byte), rows.length = (decode nonMonotonic).Header.TimeCount ∧
      (∀ z, (decode nonMonotonic).ToLua z =
        some (headerLine z ++ rows.flatten ++ closingLine)) ∧
      ∀ i, i < (decode nonMonotonic).Header.TimeCount →
        ∃ tt ty o abbr, (decode nonMonotonic).Times[i]? = some tt ∧
          (decode nonMonotonic).Types[i]? = some ty ∧
          (decode nonMonotonic).Offsets[ty.val]? = some o ∧
          readZeroString (decode nonMonotonic).ZoneAbbrs o.AbbrIndex.val = some abbr ∧
          rows[i]? = some (rowText tt o.IsDST abbr o.Offset) ∧
          (44 + 4 * (i + 1) ≤ nonMonotonic.length → tt = u32At nonMonotonic (44 + 4 * i)) ∧
          (nonMonotonic.length < 44 + 4 * (i + 1) → tt = 0) :=
  ⟨by decide, by decide, by decide, by decide,
    ToLua_row_order nonMonotonic (by decide) (by decide)⟩

/-! ## The abbreviation printed in a row -/

/-- Claim C8. When a zero byte occurs in `data` at some index at or after
`offset`, `readZeroString data offset` returns the bytes `data[offset..k)`, `k`
being the least index at or after `offset` that holds a zero byte; the result
holds no zero byte and is empty when `data[offset]` is zero; and it is the name
printed in the row of any type record whose `AbbrIndex` is `offset`. -/
theorem readZeroString_spec (data : List Byte) (offset : Nat)
    (h : ∃ j, offset ≤ j ∧ data[j]? = some 0) :
    ∃ k, offset ≤ k ∧ data[k]? = some 0 ∧
      (∀ j, offset ≤ j → j < k → data[j]? ≠ some 0) ∧
      readZeroString data offset = some ((data.drop offset).take (k - offset)) ∧
      (0 : Byte) ∉ (data.drop offset).take (k - offset) ∧
      (data[offset]? = some 0 → readZeroString data offset = some []) ∧
      ∀ (t : tz) (i : Nat) (tt : Nat) (ty : Byte) (o : tzentry),
        t.ZoneAbbrs = data → o.AbbrIndex.val = offset → t.Times[i]? = some tt →
        t.Types[i]? = some ty → t.Offsets[ty.val]? = some o →
        rowAt t i =
          some (rowText tt o.IsDST ((data.drop offset).take (k - offset)) o.Offset) := by
  obtain ⟨j0, hj0, hz0⟩ := h
  have hnul : HasNulFrom data offset := by
    refine ⟨j0, ?_, hj0, hz0⟩
    by_contra hc
    rw [List.getElem?_eq_none (by omega)] at hz0
    cases hz0
  obtain ⟨s, hs⟩ := readZeroString_isSome data offset hnul
  have hs' := hs
  rw [readZeroString_eq] at hs'
  obtain ⟨rest, hd, hno⟩ := (scanNul_eq_some_iff _ _).mp hs'
  have htake : (data.drop offset).take (offset + s.length - offset) = s := by
    rw [hd, Nat.add_sub_cancel_left, List.take_left']
    rfl
  have hget : ∀ m, data[offset + m]? = (s ++ 0 :: rest)[m]? := by
    intro m; rw [← hd, List.getElem?_drop]
  refine ⟨offset + s.length, by omega, ?_, ?_, ?_, ?_, ?_, ?_⟩
  · rw [hget, List.getElem?_append_right (Nat.le_refl _)]
    simp
  · intro j hj1 hj2 hc
    have := hget (j - offset)
    rw [show offset + (j - offset) = j by omega, hc,
      List.getElem?_append_left (by omega)] at this
    exact hno (List.getElem?_mem this.symm)
  · rw [htake]; exact hs
  · rw [htake]; exact hno
  · intro h0
    rw [hs]
    cases s with
    | nil => rfl
    | cons a s' =>
      have := hget 0
      rw [Nat.add_zero, h0] at this
      simp only [List.cons_append, List.getElem?_cons_zero, Option.some.injEq] at this
      exact absurd (by rw [this]; exact List.mem_cons_self _ _) hno
  · intro t i tt ty o ht ho h1 h2 h3
    rw [htake]
    exact (rowAt_eq_some_iff _ _ _).mpr ⟨tt, ty, o, s, h1, h2, h3, by rw [ht, ho]; exact hs, rfl⟩

/-- Claim C8 at the buffer `EST\0EDT\0` and offset 4: the result is `EDT`. -/
theorem readZeroString_spec_witness :
    (∃ j, 4 ≤ j ∧ ([69, 83, 84, 0, 69, 68, 84, 0] : List Byte)[j]? = some 0) ∧
    readZeroString [69, 83, 84, 0, 69, 68, 84, 0] 4 = some [69, 68, 84] ∧
    ∃ k, 4 ≤ k ∧ ([69, 83, 84, 0, 69, 68, 84, 0] : List Byte)[k]? = some 0 ∧
      (∀ j, 4 ≤ j → j < k → ([69, 83, 84, 0, 69, 68, 84, 0] : List Byte)[j]? ≠ some 0) ∧
      readZeroString [69, 83, 84, 0, 69, 68, 84, 0] 4 =
        some ((([69, 83, 84, 0, 69, 68, 84, 0] : List Byte).drop 4).take (k - 4)) ∧
      (0 : Byte) ∉ (([69, 83, 84, 0, 69, 68, 84, 0] : List Byte).drop 4).take (k - 4) ∧
      (([69, 83, 84, 0, 69, 68, 84, 0] : List Byte)[4]? = some 0 →
        readZeroString [69, 83, 84, 0, 69, 68, 84, 0] 4 = some []) ∧
      ∀ (t : tz) (i : Nat) (tt : Nat) (ty : Byte) (o : tzentry),
        t.ZoneAbbrs = [69, 83, 84, 0, 69, 68, 84, 0] → o.AbbrIndex.val = 4 →
        t.Times[i]? = some tt → t.Types[i]? = some ty → t.Offsets[ty.val]? = some o →
        rowAt t i = some (rowText tt o.IsDST
          ((([69, 83, 84, 0, 69, 68, 84, 0] : List Byte).drop 4).take (k - 4)) o.Offset) :=
  ⟨⟨7, by decide, by decide⟩, by decide,
    readZeroString_spec [69, 83, 84, 0, 69, 68, 84, 0] 4 ⟨7, by decide, by decide⟩⟩

/-! ## Integers: decoding and printing -/

/-- The shifts and ors of `binary.BigEndian.Uint32` add up the four bytes
weighted by powers of 256. -/
theorem uint32BE_eq (b0 b1 b2 b3 : Byte) :
    uint32BE b0 b1 b2 b3 = b0.val * 2 ^ 24 + b1.val * 2 ^ 16 + b2.val * 2 ^ 8 + b3.val := by
  have h0 := b0.isLt
  have h1 := b1.isLt
  have h2 := b2.isLt
  have h3 := b3.isLt
  unfold uint32BE
  rw [Nat.shiftLeft_eq, Nat.shiftLeft_eq, Nat.shiftLeft_eq]
  have s1 : b3.val ||| b2.val * 2 ^ 8 = 2 ^ 8 * b2.val + b3.val := by
    rw [Nat.lor_comm, Nat.mul_comm, ← Nat.mul_add_lt_is_or (by omega)]
  rw [s1]
  have s2 : (2 ^ 8 * b2.val + b3.val) ||| b1.val * 2 ^ 16 =
      2 ^ 16 * b1.val + (2 ^ 8 * b2.val + b3.val) := by
    rw [Nat.lor_comm, Nat.mul_comm, ← Nat.mul_add_lt_is_or (by omega)]
  rw [s2]
  have s3 : (2 ^ 16 * b1.val + (2 ^ 8 * b2.val + b3.val)) ||| b0.val * 2 ^ 24 =
      2 ^ 24 * b0.val + (2 ^ 16 * b1.val + (2 ^ 8 * b2.val + b3.val)) := by
    rw [Nat.lor_comm, Nat.mul_comm, ← Nat.mul_add_lt_is_or (by omega)]
  rw [s3]
  omega

theorem uint32BE_lt (b0 b1 b2 b3 : Byte) : uint32BE b0 b1 b2 b3 < 2 ^ 32 := by
  have h0 := b0.isLt
  have h1 := b1.isLt
  have h2 := b2.isLt
  have h3 := b3.isLt
  rw [uint32BE_eq]
  omega

theorem uint32BE_high (b0 b1 b2 b3 : Byte) (h : 128 ≤ b0.val) :
    2 ^ 31 ≤ uint32BE b0 b1 b2 b3 := by
  rw [uint32BE_eq]
  omega

theorem digit_val (d : Nat) (h : d < 10) : (digit d).val = 48 + d := by
  unfold digit
  show (48 + d) % 256 = 48 + d
  omega

theorem fmtUintLoop_digits :
    ∀ (fuel u : Nat) (buf : List Byte), (∀ b, b ∈ buf → 48 ≤ b.val ∧ b.val ≤ 57) →
      ∀ b, b ∈ fmtUintLoop fuel u buf → 48 ≤ b.val ∧ b.val ≤ 57 := by
  intro fuel
  induction fuel with
  | zero => intro u buf hb b hm; exact hb b hm
  | succ fuel ih =>
    intro u buf hb b hm
    rw [fmtUintLoop] at hm
    split at hm
    · refine ih (u / 10) _ ?_ b hm
      intro c hc
      rcases List.mem_cons.mp hc with rfl | hc
      · rw [digit_val _ (Nat.mod_lt _ (by omega))]; omega
      · exact hb c hc
    · rcases List.mem_cons.mp hm with rfl | hc
      · rw [digit_val _ (by omega)]; omega
      · exact hb b hc

/-- The text of `%d` holds decimal digits only: no sign. -/
theorem fmtUint_digits (u : Nat) : ∀ b, b ∈ fmtUint u → 48 ≤ b.val ∧ b.val ≤ 57 :=
  fmtUintLoop_digits (u + 1) u [] (by intro b hb; cases hb)

theorem foldl_dec (l : List Byte) (a : Nat) :
    l.foldl (fun a b => 10 * a + (b.val - 48)) a = a * 10 ^ l.length + decValue l := by
  unfold decValue
  induction l generalizing a with
  | nil => simp
  | cons c cs ih =>
    rw [List.foldl_cons, List.foldl_cons, ih, ih (10 * 0 + (c.val - 48)), List.length_cons]
    ring

theorem decValue_cons (c : Byte) (cs : List Byte) :
    decValue (c :: cs) = (c.val - 48) * 10 ^ cs.length + decValue cs := by
  have := foldl_dec cs (10 * 0 + (c.val - 48))
  simpa [decValue] using this

theorem fmtUintLoop_value :
    ∀ (fuel u : Nat) (buf : List Byte), u < fuel →
      decValue (fmtUintLoop fuel u buf) = u * 10 ^ buf.length + decValue buf := by
  intro fuel
  induction fuel with
  | zero => intro u buf h; omega
  | succ fuel ih =>
    intro u buf h
    rw [fmtUintLoop]
    split
    · rename_i h10
      rw [ih (u / 10) _ (by omega), decValue_cons, digit_val _ (Nat.mod_lt _ (by omega)),
        List.length_cons]
      have hu : u = 10 * (u / 10) + u % 10 := (Nat.div_add_mod u 10).symm
      rw [Nat.add_sub_cancel_left, pow_succ]
      nth_rewrite 3 [hu]
      ring
    · rw [decValue_cons, digit_val _ (by omega), Nat.add_sub_cancel_left]

/-- The text of `%d` denotes the number printed. -/
theorem fmtUint_value (u : Nat) : decValue (fmtUint u) = u := by
  unfold fmtUint
  rw [fmtUintLoop_value _ _ _ (by omega)]
  simp [decValue]

/-! ## The scenario of the specification -/

/-- Claim C9, refuted: on the scenario stream `toLua` succeeds, and the text
`{ts=1000, dst=false, name="EST", ut_offset=-18000}` occurs nowhere in its
output. -/
theorem scenarioEST_counterexample :
    ∃ out, toLua pathEST scenarioEST = Result.ok out ∧
      ¬ (ascii "\x7bts=1000, dst=false, name=\"EST\", ut_offset=-18000\x7d" <:+: out) :=
  ⟨ascii ("\x7b version = \"2018g\", zone = \"EST\",\n" ++
      "  \x7bts=1000, dst=false, name=\"EST\", ut_offset=4294949296\x7d,\n" ++ "\x7d\n"),
    by decide, by decide⟩

/-- Claim C9 as amended. On the scenario stream decode-then-encode succeeds for
every path and emits exactly one row between the header line and the closing
line, whose text is `{ts=1000, dst=false, name="EST", ut_offset=4294949296}`:
the offset bytes `FF FF B9 B0` are held and printed as the unsigned 32-bit value
`2 ^ 32 - 18000`. -/
theorem scenarioEST_output (path : List Byte) :
    toLua path scenarioEST =
      Result.ok (headerLine (stripPath path) ++
        ascii "  \x7bts=1000, dst=false, name=\"EST\", ut_offset=4294949296\x7d,\n" ++
        closingLine) ∧
      (decode scenarioEST).Offsets =
        [{ Offset := 2 ^ 32 - 18000, IsDST := false, AbbrIndex := 0 }] := by
  refine ⟨?_, by decide⟩
  rw [toLua_of_validHeader path scenarioEST (by decide)]
  have hT := (ToLua_eq_some_iff (decode scenarioEST) (stripPath path)
    (headerLine (stripPath path) ++
      ascii "  \x7bts=1000, dst=false, name=\"EST\", ut_offset=4294949296\x7d,\n" ++
      closingLine)).mpr
    ⟨[ascii "  \x7bts=1000, dst=false, name=\"EST\", ut_offset=4294949296\x7d,\n"],
      by decide, by decide, by simp⟩
  rw [hT]

/-! ## Transition times before 1970 -/

/-- Claim C10, refuted: the transition time is stored as `FF FF FF FF`, and the
row prints `ts=4294967295`; no minus sign follows `ts=` in the output. -/
theorem ToLua_ts_counterexample :
    ValidHeader beforeEpoch ∧ WellFormed (decode beforeEpoch) ∧
      (beforeEpoch.drop 44).take 4 = [255, 255, 255, 255] ∧
      toLua pathEST beforeEpoch = Result.ok (ascii
        ("\x7b version = \"2018g\", zone = \"EST\",\n" ++
         "  \x7bts=4294967295, dst=false, name=\"EST\", ut_offset=4294949296\x7d,\n" ++
         "\x7d\n")) ∧
      ¬ (ascii "ts=-" <:+: ascii
        ("\x7b version = \"2018g\", zone = \"EST\",\n" ++
         "  \x7bts=4294967295, dst=false, name=\"EST\", ut_offset=4294949296\x7d,\n" ++
         "\x7d\n")) := by
  decide

/-- Claim C10 as amended. Transition times are held and printed as unsigned
32-bit values: for a stream with a whole `TZif` header whose decoded model is
well formed, and a transition `i` whose four stored bytes have the high bit set,
row `i` prints after `ts=` the big-endian value of the four bytes, which lies in
`[2 ^ 31, 2 ^ 32)`, as decimal digits without a sign. -/
theorem ToLua_ts_unsigned (file : List Byte) (i : Nat) (h : ValidHeader file)
    (hw : WellFormed (decode file)) (hi : i < (decode file).Header.TimeCount)
    (hlen : 44 + 4 * (i + 1) ≤ file.length) (hhigh : 128 ≤ (file.getD (44 + 4 * i) 0).val) :
    ∃ rows : List (List Byte), rows.length = (decode file).Header.TimeCount ∧
      (∀ z, (decode file).ToLua z = some (headerLine z ++ rows.flatten ++ closingLine)) ∧
      ∃ ty o abbr, (decode file).Types[i]? = some ty ∧
        (decode file).Offsets[ty.val]? = some o ∧
        readZeroString (decode file).ZoneAbbrs o.AbbrIndex.val = some abbr ∧
        rows[i]? = some (ascii "  \x7bts=" ++ fmtUint (u32At file (44 + 4 * i)) ++ ascii ", dst="
          ++ fmtBool o.IsDST ++ ascii ", name=\"" ++ abbr ++ ascii "\", ut_offset="
          ++ fmtUint o.Offset ++ ascii "\x7d,\n") ∧
        2 ^ 31 ≤ u32At file (44 + 4 * i) ∧ u32At file (44 + 4 * i) < 2 ^ 32 ∧
        (∀ b, b ∈ fmtUint (u32At file (44 + 4 * i)) → 48 ≤ b.val ∧ b.val ≤ 57) ∧
        decValue (fmtUint (u32At file (44 + 4 * i))) = u32At file (44 + 4 * i) := by
  obtain ⟨rows, hl, hT, hrows⟩ := ToLua_of_wellFormed (decode file) hw
  refine ⟨rows, hl, hT, ?_⟩
  obtain ⟨tt, ty, o, abbr, e1, e2, e3, e4, e⟩ := hrows i hi
  have ht := decode_Times_getElem? file h.1 i hi
  rw [e1, if_pos hlen] at ht
  have ht' := Option.some.inj ht
  subst ht'
  exact ⟨ty, o, abbr, e2, e3, e4, e, uint32BE_high _ _ _ _ hhigh, uint32BE_lt _ _ _ _,
    fmtUint_digits _, fmtUint_value _⟩

/-- Claim C10 as amended, at the stream whose one transition time is stored as
`FF FF FF FF`. -/
theorem ToLua_ts_unsigned_witness :
    ValidHeader beforeEpoch ∧ WellFormed (decode beforeEpoch) ∧
    0 < (decode beforeEpoch).Header.TimeCount ∧ 44 + 4 * (0 + 1) ≤ beforeEpoch.length ∧
    128 ≤ (beforeEpoch.getD (44 + 4 * 0) 0).val ∧
    ∃ rows : List (List Byte), rows.length = (decode beforeEpoch).Header.TimeCount ∧
      (∀ z, (decode beforeEpoch).ToLua z =
        some (headerLine z ++ rows.flatten ++ closingLine)) ∧
      ∃ ty o abbr, (decode beforeEpoch).Types[0]? = some ty ∧
        (decode beforeEpoch).Offsets[ty.val]? = some o ∧
        readZeroString (decode beforeEpoch).ZoneAbbrs o.AbbrIndex.val = some abbr ∧
        rows[0]? = some (ascii "  \x7bts=" ++ fmtUint (u32At beforeEpoch (44 + 4 * 0))
          ++ ascii ", dst=" ++ fmtBool o.IsDST ++ ascii ", name=\"" ++ abbr
          ++ ascii "\", ut_offset=" ++ fmtUint o.Offset ++ ascii "\x7d,\n") ∧
        2 ^ 31 ≤ u32At beforeEpoch (44 + 4 * 0) ∧ u32At beforeEpoch (44 + 4 * 0) < 2 ^ 32 ∧
        (∀ b, b ∈ fmtUint (u32At beforeEpoch (44 + 4 * 0)) → 48 ≤ b.val ∧ b.val ≤ 57) ∧
        decValue (fmtUint (u32At beforeEpoch (44 + 4 * 0))) = u32At beforeEpoch (44 + 4 * 0) :=
  ⟨by decide, by decide, by decide, by decide, by decide,
    ToLua_ts_unsigned beforeEpoch 0 (by decide) (by decide) (by decide) (by decide) (by decide)⟩

/-! ## The text of the output -/

/-- Claim C11. On a well-formed model and for every zone name `z`, whatever its
bytes, the output of `ToLua` is the bytes `{ version = "2018g", zone = "`, then
`z` as it is, then `",` and a newline; then for each `i < TimeCount` a row
`  {ts=<int>, dst=<true|false>, name="<abbrev>", ut_offset=<int>},` and a
newline, with the fields in this order, the integers as decimal digits and the
abbreviation as it is; then `}` and a newline. -/
theorem ToLua_grammar (t : tz) (z : List Byte) (hw : WellFormed t) :
    ∃ rows : List (List Byte), rows.length = t.Header.TimeCount ∧
      t.ToLua z = some (ascii "\x7b version = \"2018g\", zone = \"" ++ z ++ ascii "\",\n"
        ++ rows.flatten ++ ascii "\x7d\n") ∧
      ∀ i, i < t.Header.TimeCount →
        ∃ tt ty o abbr, t.Times[i]? = some tt ∧ t.Types[i]? = some ty ∧
          t.Offsets[ty.val]? = some o ∧
          readZeroString t.ZoneAbbrs o.AbbrIndex.val = some abbr ∧
          rows[i]? = some (ascii "  \x7bts=" ++ fmtUint tt ++ ascii ", dst="
            ++ (if o.IsDST then ascii "true" else ascii "false") ++ ascii ", name=\"" ++ abbr
            ++ ascii "\", ut_offset=" ++ fmtUint o.Offset ++ ascii "\x7d,\n") ∧
          (∀ b, b ∈ fmtUint tt → 48 ≤ b.val ∧ b.val ≤ 57) ∧ decValue (fmtUint tt) = tt ∧
          (∀ b, b ∈ fmtUint o.Offset → 48 ≤ b.val ∧ b.val ≤ 57) ∧
          decValue (fmtUint o.Offset) = o.Offset := by
  obtain ⟨rows, hl, hT, hrows⟩ := ToLua_of_wellFormed t hw
  refine ⟨rows, hl, ?_, ?_⟩
  · rw [hT z]
    have hh : headerLine z =
        ascii "\x7b version = \"2018g\", zone = \"" ++ z ++ ascii "\",\n" := by
      have hpre : ascii "\x7b version = \"" ++ tzinfoVersion ++ ascii "\", zone = \"" =
          ascii "\x7b version = \"2018g\", zone = \"" := by decide
      unfold headerLine
      rw [hpre]
    rw [hh]
    rfl
  · intro i hi
    obtain ⟨tt, ty, o, abbr, e1, e2, e3, e4, e⟩ := hrows i hi
    exact ⟨tt, ty, o, abbr, e1, e2, e3, e4, e, fmtUint_digits _, fmtUint_value _,
      fmtUint_digits _, fmtUint_value _⟩

/-- Claim C11 at the decoded model of the scenario stream and a zone name that
holds a quote, a backslash and a newline. -/
theorem ToLua_grammar_witness :
    WellFormed (decode scenarioEST) ∧
    ∃ rows : List (List Byte), rows.length = (decode scenarioEST).Header.TimeCount ∧
      (decode scenarioEST).ToLua [34, 92, 10] =
        some (ascii "\x7b version = \"2018g\", zone = \"" ++ [34, 92, 10] ++ ascii "\",\n"
          ++ rows.flatten ++ ascii "\x7d\n") ∧
      ∀ i, i < (decode scenarioEST).Header.TimeCount →
        ∃ tt ty o abbr, (decode scenarioEST).Times[i]? = some tt ∧
          (decode scenarioEST).Types[i]? = some ty ∧
          (decode scenarioEST).Offsets[ty.val]? = some o ∧
          readZeroString (decode scenarioEST).ZoneAbbrs o.AbbrIndex.val = some abbr ∧
          rows[i]? = some (ascii "  \x7bts=" ++ fmtUint tt ++ ascii ", dst="
            ++ (if o.IsDST then ascii "true" else ascii "false") ++ ascii ", name=\"" ++ abbr
            ++ ascii "\", ut_offset=" ++ fmtUint o.Offset ++ ascii "\x7d,\n") ∧
          (∀ b, b ∈ fmtUint tt → 48 ≤ b.val ∧ b.val ≤ 57) ∧ decValue (fmtUint tt) = tt ∧
          (∀ b, b ∈ fmtUint o.Offset → 48 ≤ b.val ∧ b.val ≤ 57) ∧
          decValue (fmtUint o.Offset) = o.Offset :=
  ⟨by decide, ToLua_grammar (decode scenarioEST) [34, 92, 10] (by decide)⟩

/-! ## The header of a short stream -/

/-- Claim C20. On a stream shorter than the 44 bytes of the header, one that
begins with `TZif` included, the header read consumes what there is and leaves
the header zeroed, and `toLua` returns the empty slice with the error
`magic != TZif`. -/
theorem toLua_short_header (path file : List Byte) (h : file.length < 44) :
    readHeader file = (zeroHead, []) ∧ (decode file).Header = zeroHead ∧
      toLua path file = Result.error [] "magic != TZif" := by
  have hr := readHeader_short file h
  refine ⟨hr, ?_, ?_⟩
  · unfold decode; rw [hr]; rfl
  · unfold toLua toLuaRun
    rw [hr]
    simp [zeroHead]

/-- Claim C20 at a stream of 14 bytes that begins with `TZif`. -/
theorem toLua_short_header_witness :
    shortHeader.length < 44 ∧ shortHeader.take 4 = magicTZif ∧
      readHeader shortHeader = (zeroHead, []) ∧ (decode shortHeader).Header = zeroHead ∧
      toLua pathEST shortHeader = Result.error [] "magic != TZif" :=
  ⟨by decide, by decide, toLua_short_header pathEST shortHeader (by decide)⟩

/-! ## What the output depends on -/

theorem rowAt_congr (t1 t2 : tz) (h2 : t1.Times = t2.Times) (h3 : t1.Types = t2.Types)
    (h4 : t1.Offsets = t2.Offsets) (h5 : t1.ZoneAbbrs = t2.ZoneAbbrs) (i : Nat) :
    rowAt t1 i = rowAt t2 i := by
  unfold rowAt
  rw [h2, h3, h4, h5]

theorem ToLuaLoop_congr (t1 t2 : tz) (h : ∀ i, rowAt t1 i = rowAt t2 i) :
    ∀ (n i : Nat) (buf : List Byte), ToLuaLoop t1 n i buf = ToLuaLoop t2 n i buf := by
  intro n
  induction n with
  | zero => intro i buf; rfl
  | succ n ih =>
    intro i buf
    rw [ToLuaLoop, ToLuaLoop, h i]
    cases rowAt t2 i with
    | none => rfl
    | some row => exact ih _ _

/-- The path enters the result of `toLua` through its zone name only. -/
theorem toLua_zone_name_only (path1 path2 file : List Byte)
    (hz : stripPath path1 = stripPath path2) : toLua path1 file = toLua path2 file := by
  unfold toLua toLuaRun
  rw [hz]

/-- The scenario stream read under two paths that name the zone `EST`. -/
theorem toLua_zone_name_only_example :
    stripPath pathEST = stripPath pathESTCopy ∧ pathEST ≠ pathESTCopy ∧
      toLua pathEST scenarioEST = toLua pathESTCopy scenarioEST :=
  ⟨by decide, by decide, toLua_zone_name_only pathEST pathESTCopy scenarioEST (by decide)⟩

/-- Claim C16. Two models that agree on TimeCount, Times, Types, Offsets and
ZoneAbbrs render alike under every zone name, whatever their leap records,
their standard and UT flags, their version and their other header counts. -/
theorem ToLua_ignores_extras (t1 t2 : tz) (z : List Byte)
    (h1 : t1.Header.TimeCount = t2.Header.TimeCount) (h2 : t1.Times = t2.Times)
    (h3 : t1.Types = t2.Types) (h4 : t1.Offsets = t2.Offsets)
    (h5 : t1.ZoneAbbrs = t2.ZoneAbbrs) : t1.ToLua z = t2.ToLua z := by
  unfold tz.ToLua
  rw [h1, ToLuaLoop_congr t1 t2 (rowAt_congr t1 t2 h2 h3 h4 h5)]

/-- Claim C16 at the decoded model of the scenario stream and the same model
with other leap records, flags, version and counts. -/
theorem ToLua_ignores_extras_witness :
    (decode scenarioEST).Leaps ≠ scenarioOtherExtras.Leaps ∧
      (decode scenarioEST).IsStandard ≠ scenarioOtherExtras.IsStandard ∧
      (decode scenarioEST).IsUT ≠ scenarioOtherExtras.IsUT ∧
      (decode scenarioEST).Header.Version ≠ scenarioOtherExtras.Header.Version ∧
      (decode scenarioEST).ToLua (ascii "EST") = scenarioOtherExtras.ToLua (ascii "EST") :=
  ⟨by decide, by decide, by decide, by decide,
    ToLua_ignores_extras (decode scenarioEST) scenarioOtherExtras (ascii "EST") (by decide)
      (by decide) (by decide) (by decide) (by decide)⟩

/-! ## Safety of the renderer -/

theorem wellFormed_of_indices (t : tz) (hT : t.Header.TimeCount ≤ t.Times.length)
    (hY : t.Header.TimeCount ≤ t.Types.length)
    (hO : ∀ i, i < t.Header.TimeCount → ∀ ty, t.Types[i]? = some ty → ty.val < t.Offsets.length)
    (hZ : ∀ i, i < t.Header.TimeCount → ∀ ty o, t.Types[i]? = some ty →
      t.Offsets[ty.val]? = some o → ∃ k, o.AbbrIndex.val ≤ k ∧ t.ZoneAbbrs[k]? = some 0) :
    WellFormed t := by
  refine ⟨hT, hY, ?_⟩
  intro i hi
  have hty : t.Types[i]? = some t.Types[i] := List.getElem?_eq_getElem (by omega)
  have hlt := hO i hi _ hty
  have ho : t.Offsets[(t.Types[i]).val]? = some t.Offsets[(t.Types[i]).val] :=
    List.getElem?_eq_getElem hlt
  obtain ⟨k, hk, hz⟩ := hZ i hi _ _ hty ho
  refine ⟨_, hty, _, ho, k, ?_, hk, hz⟩
  by_contra hc
  rw [List.getElem?_eq_none (by omega)] at hz
  cases hz

theorem indices_of_wellFormed (t : tz) (hw : WellFormed t) :
    (∀ i, i < t.Header.TimeCount → ∀ ty, t.Types[i]? = some ty → ty.val < t.Offsets.length) ∧
      (∀ i, i < t.Header.TimeCount → ∀ ty o, t.Types[i]? = some ty →
        t.Offsets[ty.val]? = some o → ∃ k, o.AbbrIndex.val ≤ k ∧ t.ZoneAbbrs[k]? = some 0) := by
  obtain ⟨-, -, h3⟩ := hw
  constructor
  · intro i hi ty hty
    obtain ⟨ty', hty', o, ho, -⟩ := h3 i hi
    have e : ty' = ty := Option.some.inj (hty'.symm.trans hty)
    subst e
    by_contra hc
    have hn : t.Offsets[ty'.val]? = none := List.getElem?_eq_none (by omega)
    have ho' : t.Offsets[ty'.val]? = some o := ho
    rw [hn] at ho'
    cases ho'
  · intro i hi ty o hty ho
    obtain ⟨ty', hty', o', ho', k, -, hk, hz⟩ := h3 i hi
    have e : ty' = ty := Option.some.inj (hty'.symm.trans hty)
    subst e
    have e2 : o' = o := Option.some.inj (ho'.symm.trans ho)
    subst e2
    exact ⟨k, hk, hz⟩

/-- Claim C18. On a model with at least TimeCount times and type indices, every
type index below the number of type records and, for each selected type record,
a zero byte in ZoneAbbrs at or after its AbbrIndex, `ToLua` does not panic: every
round of its loop finds its row, every scan of `readZeroString` ends with a
string whatever fuel beyond the length of the buffer it is given, and the method
returns its output. -/
theorem ToLua_safe (t : tz) (z : List Byte) (hT : t.Header.TimeCount ≤ t.Times.length)
    (hY : t.Header.TimeCount ≤ t.Types.length)
    (hO : ∀ i, i < t.Header.TimeCount → ∀ ty, t.Types[i]? = some ty → ty.val < t.Offsets.length)
    (hZ : ∀ i, i < t.Header.TimeCount → ∀ ty o, t.Types[i]? = some ty →
      t.Offsets[ty.val]? = some o → ∃ k, o.AbbrIndex.val ≤ k ∧ t.ZoneAbbrs[k]? = some 0) :
    (∃ out, t.ToLua z = some out) ∧
      (∀ i, i < t.Header.TimeCount → ∃ row, rowAt t i = some row) ∧
      ∀ i, i < t.Header.TimeCount → ∀ ty o, t.Types[i]? = some ty →
        t.Offsets[ty.val]? = some o →
        ∃ abbr, readZeroString t.ZoneAbbrs o.AbbrIndex.val = some abbr ∧
          ∀ extra, readZeroStringLoop t.ZoneAbbrs (t.ZoneAbbrs.length + 1 + extra) []
            o.AbbrIndex.val = some abbr := by
  have hw := wellFormed_of_indices t hT hY hO hZ
  obtain ⟨rows, hl, hout, hrows⟩ := ToLua_of_wellFormed t hw
  refine ⟨⟨_, hout z⟩, ?_, ?_⟩
  · intro i hi
    obtain ⟨tt, ty, o, abbr, e1, e2, e3, e4, -⟩ := hrows i hi
    exact ⟨_, (rowAt_eq_some_iff _ _ _).mpr ⟨tt, ty, o, abbr, e1, e2, e3, e4, rfl⟩⟩
  · intro i hi ty o hty ho
    obtain ⟨tt, ty', o', abbr, -, e2, e3, e4, -⟩ := hrows i hi
    have e : ty' = ty := Option.some.inj (e2.symm.trans hty)
    subst e
    have e' : o' = o := Option.some.inj (e3.symm.trans ho)
    subst e'
    refine ⟨abbr, e4, ?_⟩
    intro extra
    rw [readZeroStringLoop_eq _ _ _ _ (by omega), ← readZeroString_eq, e4]
    simp

/-- Claim C18 at the decoded model of the scenario stream. -/
theorem ToLua_safe_witness :
    (decode scenarioEST).Header.TimeCount ≤ (decode scenarioEST).Times.length ∧
    (decode scenarioEST).Header.TimeCount ≤ (decode scenarioEST).Types.length ∧
    WellFormed (decode scenarioEST) ∧
    (∃ out, (decode scenarioEST).ToLua (ascii "EST") = some out) ∧
      (∀ i, i < (decode scenarioEST).Header.TimeCount →
        ∃ row, rowAt (decode scenarioEST) i = some row) ∧
      ∀ i, i < (decode scenarioEST).Header.TimeCount → ∀ ty o,
        (decode scenarioEST).Types[i]? = some ty →
        (decode scenarioEST).Offsets[ty.val]? = some o →
        ∃ abbr, readZeroString (decode scenarioEST).ZoneAbbrs o.AbbrIndex.val = some abbr ∧
          ∀ extra, readZeroStringLoop (decode scenarioEST).ZoneAbbrs
            ((decode scenarioEST).ZoneAbbrs.length + 1 + extra) [] o.AbbrIndex.val = some abbr :=
  ⟨by decide, by decide, by decide,
    ToLua_safe (decode scenarioEST) (ascii "EST") (by decide) (by decide)
      (indices_of_wellFormed (decode scenarioEST) (by decide)).1
      (indices_of_wellFormed (decode scenarioEST) (by decide)).2⟩

/-! ## The zone name of a path -/

theorem splitSlash_ne_nil (p : List Byte) : splitSlash p ≠ [] := by
  cases p with
  | nil => simp [splitSlash]
  | cons c cs =>
    rw [splitSlash]
    split
    · simp
    · split <;> simp

theorem splitSlash_cons_of_ne (c : Byte) (cs : List Byte) (hc : c ≠ 47) :
    ∃ w ws, splitSlash cs = w :: ws ∧ splitSlash (c :: cs) = (c :: w) :: ws := by
  cases hs : splitSlash cs with
  | nil => exact absurd hs (splitSlash_ne_nil cs)
  | cons w ws =>
    refine ⟨w, ws, rfl, ?_⟩
    rw [splitSlash, if_neg hc, hs]

/-- No component of a split path holds a slash. -/
theorem splitSlash_no_slash (p : List Byte) : ∀ w, w ∈ splitSlash p → (47 : Byte) ∉ w := by
  induction p with
  | nil => intro w hw; simp [splitSlash] at hw; simp [hw]
  | cons c cs ih =>
    intro w hw
    by_cases hc : c = 47
    · rw [splitSlash, if_pos hc] at hw
      rcases List.mem_cons.mp hw with h | h
      · simp [h]
      · exact ih w h
    · obtain ⟨w0, ws, e1, e2⟩ := splitSlash_cons_of_ne c cs hc
      rw [e2] at hw
      rw [e1] at ih
      rcases List.mem_cons.mp hw with h | h
      · subst h
        intro hm
        rcases List.mem_cons.mp hm with h' | h'
        · exact hc h'.symm
        · exact ih w0 (List.mem_cons_self _ _) h'
      · exact ih w (List.mem_cons_of_mem _ h)

theorem joinSlash_cons_cons (w v : List Byte) (ws : List (List Byte)) :
    joinSlash (w :: v :: ws) = w ++ 47 :: joinSlash (v :: ws) := rfl

/-- Joining the components of a split path with slashes gives the path back. -/
theorem joinSlash_splitSlash (p : List Byte) : joinSlash (splitSlash p) = p := by
  induction p with
  | nil => simp [splitSlash, joinSlash]
  | cons c cs ih =>
    by_cases hc : c = 47
    · rw [splitSlash, if_pos hc]
      cases hs : splitSlash cs with
      | nil => exact absurd hs (splitSlash_ne_nil cs)
      | cons v vs =>
        rw [joinSlash_cons_cons, ← hs, ih, hc]
        rfl
    · obtain ⟨w0, ws, e1, e2⟩ := splitSlash_cons_of_ne c cs hc
      rw [e2]
      rw [e1] at ih
      cases ws with
      | nil =>
        rw [joinSlash] at ih ⊢
        rw [ih]
      | cons v vs =>
        rw [joinSlash_cons_cons] at ih ⊢
        rw [List.cons_append, ih]

theorem splitSlash_append_slash (w rest : List Byte) (hw : (47 : Byte) ∉ w) :
    splitSlash (w ++ 47 :: rest) = w :: splitSlash rest := by
  induction w with
  | nil => rw [List.nil_append, splitSlash, if_pos rfl]
  | cons c cs ih =>
    have hc : c ≠ 47 := fun h => hw (by rw [h]; exact List.mem_cons_self _ _)
    have hcs : (47 : Byte) ∉ cs := fun h => hw (List.mem_cons_of_mem _ h)
    rw [List.cons_append, splitSlash, if_neg hc, ih hcs]

theorem splitSlash_of_no_slash (w : List Byte) (hw : (47 : Byte) ∉ w) : splitSlash w = [w] := by
  induction w with
  | nil => rfl
  | cons c cs ih =>
    have hc : c ≠ 47 := fun h => hw (by rw [h]; exact List.mem_cons_self _ _)
    have hcs : (47 : Byte) ∉ cs := fun h => hw (List.mem_cons_of_mem _ h)
    rw [splitSlash, if_neg hc, ih hcs]

/-- Splitting a join of slash-free components gives the components back. -/
theorem splitSlash_joinSlash (ws : List (List Byte)) (hne : ws ≠ [])
    (hws : ∀ w, w ∈ ws → (47 : Byte) ∉ w) : splitSlash (joinSlash ws) = ws := by
  induction ws with
  | nil => exact absurd rfl hne
  | cons w vs ih =>
    cases vs with
    | nil =>
      rw [joinSlash]
      exact splitSlash_of_no_slash w (hws w (List.mem_cons_self _ _))
    | cons v vs' =>
      rw [joinSlash_cons_cons, splitSlash_append_slash _ _ (hws w (List.mem_cons_self _ _)),
        ih (by simp) (fun x hx => hws x (List.mem_cons_of_mem _ hx))]

/-- The loop of `stripPath` after `n` rounds holds `-1` when none of the first
`n` components is `zoneinfo`, and otherwise the last index below `n` that is. -/
theorem findZoneinfo_fold (tmp : List (List Byte)) (n : Nat) :
    ((List.range n).foldl
        (fun (found : Int) (i : Nat) =>
          if tmp[i]? = some (ascii "zoneinfo") then (i : Int) else found) (-1) = -1 ∧
      ∀ j, j < n → tmp[j]? ≠ some (ascii "zoneinfo")) ∨
    ∃ k, k < n ∧
      (List.range n).foldl
        (fun (found : Int) (i : Nat) =>
          if tmp[i]? = some (ascii "zoneinfo") then (i : Int) else found) (-1) = (k : Int) ∧
      tmp[k]? = some (ascii "zoneinfo") ∧
      ∀ j, k < j → j < n → tmp[j]? ≠ some (ascii "zoneinfo") := by
  induction n with
  | zero => left; exact ⟨rfl, by intro j hj; omega⟩
  | succ n ih =>
    rw [List.range_succ, List.foldl_append, List.foldl_cons, List.foldl_nil]
    by_cases hn : tmp[n]? = some (ascii "zoneinfo")
    · right
      exact ⟨n, by omega, by rw [if_pos hn], hn, by intro j h1 h2; omega⟩
    · rw [if_neg hn]
      rcases ih with ⟨h1, h2⟩ | ⟨k, hk, h1, h2, h3⟩
      · left
        refine ⟨h1, ?_⟩
        intro j hj
        by_cases hjn : j = n
        · rw [hjn]; exact hn
        · exact h2 j (by omega)
      · right
        refine ⟨k, by omega, h1, h2, ?_⟩
        intro j hj1 hj2
        by_cases hjn : j = n
        · rw [hjn]; exact hn
        · exact h3 j hj1 (by omega)

theorem findZoneinfo_absent (tmp : List (List Byte)) (h : ascii "zoneinfo" ∉ tmp) :
    findZoneinfo tmp = -1 := by
  unfold findZoneinfo
  rcases findZoneinfo_fold tmp tmp.length with ⟨h1, -⟩ | ⟨k, -, -, h2, -⟩
  · exact h1
  · exact absurd (List.getElem?_mem h2) h

theorem findZoneinfo_present (tmp : List (List Byte)) (i : Nat)
    (h : tmp[i]? = some (ascii "zoneinfo")) :
    ∃ k, i ≤ k ∧ findZoneinfo tmp = (k : Int) ∧ tmp[k]? = some (ascii "zoneinfo") ∧
      ∀ j, k < j → tmp[j]? ≠ some (ascii "zoneinfo") := by
  have hi : i < tmp.length := by
    by_contra hc
    rw [List.getElem?_eq_none (by omega)] at h
    cases h
  unfold findZoneinfo
  rcases findZoneinfo_fold tmp tmp.length with ⟨-, h2⟩ | ⟨k, hk, h1, h2, h3⟩
  · exact absurd h (h2 i hi)
  · refine ⟨k, ?_, h1, h2, ?_⟩
    · by_contra hc
      exact h3 i (by omega) hi h
    · intro j hj
      by_cases hjl : j < tmp.length
      · exact h3 j hj hjl
      · rw [List.getElem?_eq_none (by omega)]
        intro hc
        cases hc

/-- Claim C17. A path none of whose components between slashes is `zoneinfo`
has the zone name `???`. -/
theorem stripPath_without_zoneinfo (p : List Byte) (h : ascii "zoneinfo" ∉ splitSlash p) :
    stripPath p = ascii "???" := by
  unfold stripPath
  simp only []
  rw [findZoneinfo_absent _ h]
  rfl

/-- Claim C17 at the path `/etc/localtime`. -/
theorem stripPath_without_zoneinfo_witness :
    splitSlash pathLocaltime = [[], ascii "etc", ascii "localtime"] ∧
      ascii "zoneinfo" ∉ splitSlash pathLocaltime ∧ stripPath pathLocaltime = ascii "???" :=
  ⟨by decide, by decide, stripPath_without_zoneinfo pathLocaltime (by decide)⟩

/-- Claim C19. When `zoneinfo` is a component of the path at some index 1 or
more, `stripPath` returns the components after the last such component, joined
by slashes; no component of the result is `zoneinfo`. -/
theorem stripPath_with_zoneinfo (p : List Byte)
    (h : ∃ i, 1 ≤ i ∧ (splitSlash p)[i]? = some (ascii "zoneinfo")) :
    ∃ k, 1 ≤ k ∧ (splitSlash p)[k]? = some (ascii "zoneinfo") ∧
      (∀ j, k < j → (splitSlash p)[j]? ≠ some (ascii "zoneinfo")) ∧
      stripPath p = joinSlash ((splitSlash p).drop (k + 1)) ∧
      ascii "zoneinfo" ∉ splitSlash (stripPath p) := by
  obtain ⟨i, hi, hz⟩ := h
  obtain ⟨k, hik, hf, hk, hlast⟩ := findZoneinfo_present _ i hz
  have hs : stripPath p = joinSlash ((splitSlash p).drop (k + 1)) := by
    unfold stripPath
    simp only []
    rw [hf, if_pos (by omega)]
    rfl
  refine ⟨k, by omega, hk, hlast, hs, ?_⟩
  rw [hs]
  by_cases hne : (splitSlash p).drop (k + 1) = []
  · rw [hne]
    decide
  · rw [splitSlash_joinSlash _ hne
      (fun w hw => splitSlash_no_slash p w (List.mem_of_mem_drop hw))]
    intro hm
    obtain ⟨n, hn⟩ := List.mem_iff_getElem?.mp hm
    rw [List.getElem?_drop] at hn
    exact hlast (k + 1 + n) (by omega) hn

/-- Claim C19 at the path `/usr/share/zoneinfo/America/New_York`, whose zone
name is `America/New_York`. -/
theorem stripPath_with_zoneinfo_witness :
    (∃ i, 1 ≤ i ∧ (splitSlash pathNewYork)[i]? = some (ascii "zoneinfo")) ∧
    stripPath pathNewYork = ascii "America/New_York" ∧
    ∃ k, 1 ≤ k ∧ (splitSlash pathNewYork)[k]? = some (ascii "zoneinfo") ∧
      (∀ j, k < j → (splitSlash pathNewYork)[j]? ≠ some (ascii "zoneinfo")) ∧
      stripPath pathNewYork = joinSlash ((splitSlash pathNewYork).drop (k + 1)) ∧
      ascii "zoneinfo" ∉ splitSlash (stripPath pathNewYork) :=
  ⟨⟨3, by decide, by decide⟩, by decide,
    stripPath_with_zoneinfo pathNewYork ⟨3, by decide, by decide⟩⟩

/-! ## Reading: all seven sections -/

theorem readFlag_eq :
    readFlag = readFixed 1 (fun bs => decide (bs.getD 0 0 = (1 : Byte))) false := by
  funext r
  unfold readFlag readU8 readFixed
  cases hr : readFull 1 r with
  | mk v r' =>
    cases v with
    | none => simp
    | some bs => simp

theorem readLoop_snd {α : Type} (k : Nat) (dec : List Byte → α) (zero : α)
    (n : Nat) (acc : List α) (r : List Byte) :
    (readLoop (readFixed k dec zero) n acc r).2 = r.drop (k * n) := by
  rw [readLoop_readFixed]

theorem readFixed_append {α : Type} (k : Nat) (dec : List Byte → α) (zero : α)
    (r t : List Byte) (h : k ≤ r.length) :
    readFixed k dec zero (r ++ t) = (dec (r.take k), r.drop k ++ t) ∧
      readFixed k dec zero r = (dec (r.take k), r.drop k) := by
  have h' : k ≤ r.length + t.length := by omega
  constructor
  · simp [readFixed, readFull, h', List.take_append_of_le_length h,
      List.drop_append_of_le_length h]
  · simp [readFixed, readFull, h]

/-- Bytes after those a loop of reads needs change nothing but what is left. -/
theorem readLoop_append {α : Type} (k : Nat) (dec : List Byte → α) (zero : α) :
    ∀ (n : Nat) (acc : List α) (r t : List Byte), k * n ≤ r.length →
      readLoop (readFixed k dec zero) n acc (r ++ t) =
        ((readLoop (readFixed k dec zero) n acc r).1,
         (readLoop (readFixed k dec zero) n acc r).2 ++ t) := by
  intro n
  induction n with
  | zero => intro acc r t _; rfl
  | succ n ih =>
    intro acc r t h
    have hk : k ≤ r.length := by
      have : k ≤ k * (n + 1) := Nat.le_mul_of_pos_right k (by omega)
      omega
    obtain ⟨e1, e2⟩ := readFixed_append k dec zero r t hk
    rw [readLoop, readLoop, e1, e2]
    simp only []
    apply ih
    rw [List.length_drop, Nat.mul_add, Nat.mul_one] at *
    omega

theorem fileRead_append (n : Nat) (r t : List Byte) (h : n ≤ r.length) :
    fileRead n (r ++ t) = ((fileRead n r).1, (fileRead n r).2 ++ t) := by
  unfold fileRead
  have h1 : n - r.length = 0 := by omega
  have h2 : n - (r.length + t.length) = 0 := by omega
  simp [List.take_append_of_le_length h, List.drop_append_of_le_length h, h1, h2]

theorem readLoop_append_of_eq {α : Type} (read : List Byte → α × List Byte) (k : Nat)
    (dec : List Byte → α) (zero : α) (hread : read = readFixed k dec zero)
    (n : Nat) (r t : List Byte) (h : k * n ≤ r.length) :
    readLoop read n [] (r ++ t) = ((readLoop read n [] r).1, (readLoop read n [] r).2 ++ t) := by
  subst hread
  exact readLoop_append k dec zero n [] r t h

theorem readLoop_snd_of_eq {α : Type} (read : List Byte → α × List Byte) (k : Nat)
    (dec : List Byte → α) (zero : α) (hread : read = readFixed k dec zero)
    (n : Nat) (r : List Byte) : (readLoop read n [] r).2 = r.drop (k * n) := by
  subst hread
  exact readLoop_snd k dec zero n [] r

/-- The seven section reads, one after the other. -/
theorem decodeBody_eq (hd : tzhead) (r0 : List Byte) :
    decodeBody hd r0 =
      ({ Header := hd,
         Times := (readLoop readU32 hd.TimeCount [] r0).1,
         Types := (readLoop readU8 hd.TimeCount [] (r0.drop (4 * hd.TimeCount))).1,
         Offsets := (readLoop readEntry hd.TypeCount []
            (r0.drop (4 * hd.TimeCount + hd.TimeCount))).1,
         ZoneAbbrs := (fileRead hd.CharCount
            (r0.drop (4 * hd.TimeCount + hd.TimeCount + 6 * hd.TypeCount))).1,
         Leaps := (readLoop readLeap hd.LeapCount []
            (r0.drop (4 * hd.TimeCount + hd.TimeCount + 6 * hd.TypeCount + hd.CharCount))).1,
         IsStandard := (readLoop readFlag hd.TransIsStdCount []
            (r0.drop (4 * hd.TimeCount + hd.TimeCount + 6 * hd.TypeCount + hd.CharCount
              + 8 * hd.LeapCount))).1,
         IsUT := (readLoop readFlag hd.TransIsGMTCount []
            (r0.drop (4 * hd.TimeCount + hd.TimeCount + 6 * hd.TypeCount + hd.CharCount
              + 8 * hd.LeapCount + hd.TransIsStdCount))).1 },
       r0.drop (4 * hd.TimeCount + hd.TimeCount + 6 * hd.TypeCount + hd.CharCount
          + 8 * hd.LeapCount + hd.TransIsStdCount + hd.TransIsGMTCount)) := by
  have l1 : (readLoop readU32 hd.TimeCount [] r0).2 = r0.drop (4 * hd.TimeCount) :=
    readLoop_snd_of_eq readU32 4 _ _ rfl _ _
  have l2 : ∀ r, (readLoop readU8 hd.TimeCount [] r).2 = r.drop hd.TimeCount := by
    intro r
    rw [readLoop_snd_of_eq readU8 1 _ _ rfl, Nat.one_mul]
  have l3 : ∀ r, (readLoop readEntry hd.TypeCount [] r).2 = r.drop (6 * hd.TypeCount) :=
    fun r => readLoop_snd_of_eq readEntry 6 _ _ rfl _ r
  have l4 : ∀ r, (fileRead hd.CharCount r).2 = r.drop hd.CharCount := fun r => rfl
  have l5 : ∀ r, (readLoop readLeap hd.LeapCount [] r).2 = r.drop (8 * hd.LeapCount) :=
    fun r => readLoop_snd_of_eq readLeap 8 _ _ rfl _ r
  have l6 : ∀ n r, (readLoop readFlag n [] r).2 = r.drop n := by
    intro n r
    rw [readLoop_snd_of_eq readFlag 1 _ _ readFlag_eq, Nat.one_mul]
  have h : decodeBody hd r0 =
      ({ Header := hd,
         Times := (readLoop readU32 hd.TimeCount [] r0).1,
         Types := (readLoop readU8 hd.TimeCount [] (readLoop readU32 hd.TimeCount [] r0).2).1,
         Offsets := (readLoop readEntry hd.TypeCount []
            (readLoop readU8 hd.TimeCount [] (readLoop readU32 hd.TimeCount [] r0).2).2).1,
         ZoneAbbrs := (fileRead hd.CharCount (readLoop readEntry hd.TypeCount []
            (readLoop readU8 hd.TimeCount [] (readLoop readU32 hd.TimeCount [] r0).2).2).2).1,
         Leaps := (readLoop readLeap hd.LeapCount [] (fileRead hd.CharCount
            (readLoop readEntry hd.TypeCount [] (readLoop readU8 hd.TimeCount []
              (readLoop readU32 hd.TimeCount [] r0).2).2).2).2).1,
         IsStandard := (readLoop readFlag hd.TransIsStdCount []
            (readLoop readLeap hd.LeapCount [] (fileRead hd.CharCount
              (readLoop readEntry hd.TypeCount [] (readLoop readU8 hd.TimeCount []
                (readLoop readU32 hd.TimeCount [] r0).2).2).2).2).2).1,
         IsUT := (readLoop readFlag hd.TransIsGMTCount []
            (readLoop readFlag hd.TransIsStdCount []
              (readLoop readLeap hd.LeapCount [] (fileRead hd.CharCount
                (readLoop readEntry hd.TypeCount [] (readLoop readU8 hd.TimeCount []
                  (readLoop readU32 hd.TimeCount [] r0).2).2).2).2).2).2).1 },
       (readLoop readFlag hd.TransIsGMTCount []
          (readLoop readFlag hd.TransIsStdCount []
            (readLoop readLeap hd.LeapCount [] (fileRead hd.CharCount
              (readLoop readEntry hd.TypeCount [] (readLoop readU8 hd.TimeCount []
                (readLoop readU32 hd.TimeCount [] r0).2).2).2).2).2).2).2) := rfl
  rw [h]
  simp only [l1, l2, l3, l4, l5, l6, List.drop_drop]

/-- Bytes after the declared sections change nothing in the decoded model; they
are what is left unread. -/
theorem decodeBody_append (hd : tzhead) (r t : List Byte)
    (h : 4 * hd.TimeCount + hd.TimeCount + 6 * hd.TypeCount + hd.CharCount
        + 8 * hd.LeapCount + hd.TransIsStdCount + hd.TransIsGMTCount ≤ r.length) :
    decodeBody hd (r ++ t) = ((decodeBody hd r).1, (decodeBody hd r).2 ++ t) := by
  have d : ∀ n, n ≤ r.length → (r ++ t).drop n = r.drop n ++ t :=
    fun n hn => List.drop_append_of_le_length hn
  rw [decodeBody_eq, decodeBody_eq]
  simp only [d _ (show 4 * hd.TimeCount ≤ r.length by omega),
    d _ (show 4 * hd.TimeCount + hd.TimeCount ≤ r.length by omega),
    d _ (show 4 * hd.TimeCount + hd.TimeCount + 6 * hd.TypeCount ≤ r.length by omega),
    d _ (show 4 * hd.TimeCount + hd.TimeCount + 6 * hd.TypeCount + hd.CharCount ≤ r.length
      by omega),
    d _ (show 4 * hd.TimeCount + hd.TimeCount + 6 * hd.TypeCount + hd.CharCount
      + 8 * hd.LeapCount ≤ r.length by omega),
    d _ (show 4 * hd.TimeCount + hd.TimeCount + 6 * hd.TypeCount + hd.CharCount
      + 8 * hd.LeapCount + hd.TransIsStdCount ≤ r.length by omega),
    d _ h]
  rw [readLoop_append_of_eq readU32 4 _ _ rfl _ r t (by omega),
    readLoop_append_of_eq readU8 1 _ _ rfl _ _ t (by rw [List.length_drop]; omega),
    readLoop_append_of_eq readEntry 6 _ _ rfl _ _ t (by rw [List.length_drop]; omega),
    fileRead_append _ _ t (by rw [List.length_drop]; omega),
    readLoop_append_of_eq readLeap 8 _ _ rfl _ _ t (by rw [List.length_drop]; omega),
    readLoop_append_of_eq readFlag 1 _ _ readFlag_eq _ _ t (by rw [List.length_drop]; omega),
    readLoop_append_of_eq readFlag 1 _ _ readFlag_eq _ _ t (by rw [List.length_drop]; omega)]

/-! ## Reading: every section in terms of the stream -/

/-- A loop of fixed-size reads that starts at offset `a` of a stream. -/
theorem readLoop_fst_drop {α : Type} (read : List Byte → α × List Byte) (k : Nat)
    (dec : List Byte → α) (zero : α) (hread : read = readFixed k dec zero) (hk : 0 < k)
    (n a : Nat) (r : List Byte) :
    (readLoop read n [] (r.drop a)).1 =
      (List.range n).map
        (fun i => if a + k * (i + 1) ≤ r.length then dec ((r.drop (a + k * i)).take k)
          else zero) := by
  subst hread
  rw [readLoop_readFixed]
  simp only [List.nil_append, List.length_drop, List.drop_drop]
  apply List.map_congr_left
  intro i _
  have hpos : 0 < k * (i + 1) := Nat.mul_pos hk (by omega)
  by_cases hc : a + k * (i + 1) ≤ r.length
  · rw [if_pos hc, if_pos (by omega)]
  · rw [if_neg hc, if_neg (by omega)]

theorem decodeEntry_take_drop (file : List Byte) (x : Nat) :
    decodeEntry ((file.drop x).take 6) = entryAt file x := by
  unfold decodeEntry entryAt
  rw [u32At_take_drop file x 6 0 (by omega), getD_take_drop file x 6 4 (by omega),
    getD_take_drop file x 6 5 (by omega)]
  rfl

theorem leap_take_drop (file : List Byte) (x : Nat) :
    ({ A := u32At ((file.drop x).take 8) 0, B := u32At ((file.drop x).take 8) 4 } : tzleap) =
      leapAt file x := by
  unfold leapAt
  rw [u32At_take_drop file x 8 0 (by omega), u32At_take_drop file x 8 4 (by omega)]
  rfl

/-- With a whole header, the decoded model is the seven sections read after it
under the header it holds. -/
theorem decode_eq_body (file : List Byte) (h : 44 ≤ file.length) :
    decode file = (decodeBody (decode file).Header (file.drop 44)).1 := by
  unfold decode
  rw [readHeader_long file h, decodeBody_Header]

theorem body_Offsets (hd : tzhead) (file : List Byte) :
    (decodeBody hd (file.drop 44)).1.Offsets =
      (List.range hd.TypeCount).map
        (fun j => if offEntries hd + 6 * (j + 1) ≤ file.length
          then entryAt file (offEntries hd + 6 * j)
          else { Offset := 0, IsDST := false, AbbrIndex := 0 }) := by
  rw [decodeBody_eq]
  simp only [List.drop_drop]
  rw [readLoop_fst_drop readEntry 6 _ _ rfl (by omega)]
  have e : 44 + (4 * hd.TimeCount + hd.TimeCount) = offEntries hd := by
    unfold offEntries; omega
  simp only [e, decodeEntry_take_drop]

theorem body_ZoneAbbrs (hd : tzhead) (file : List Byte) :
    (decodeBody hd (file.drop 44)).1.ZoneAbbrs =
      (file.drop (offAbbrs hd)).take hd.CharCount ++
        List.replicate (hd.CharCount - (file.length - offAbbrs hd)) 0 := by
  rw [decodeBody_eq]
  simp only [List.drop_drop, fileRead, List.length_drop]
  have e : 44 + (4 * hd.TimeCount + hd.TimeCount + 6 * hd.TypeCount) = offAbbrs hd := by
    unfold offAbbrs; omega
  rw [e]

theorem body_Leaps (hd : tzhead) (file : List Byte) :
    (decodeBody hd (file.drop 44)).1.Leaps =
      (List.range hd.LeapCount).map
        (fun j => if offLeaps hd + 8 * (j + 1) ≤ file.length
          then leapAt file (offLeaps hd + 8 * j) else { A := 0, B := 0 }) := by
  rw [decodeBody_eq]
  simp only [List.drop_drop]
  rw [readLoop_fst_drop readLeap 8 _ _ rfl (by omega)]
  have e : 44 + (4 * hd.TimeCount + hd.TimeCount + 6 * hd.TypeCount + hd.CharCount) =
      offLeaps hd := by
    unfold offLeaps; omega
  simp only [e, leap_take_drop]

theorem flags_at (n a : Nat) (file : List Byte) :
    (readLoop readFlag n [] (file.drop a)).1 =
      (List.range n).map (fun j => decide (file.getD (a + j) 0 = 1)) := by
  rw [readLoop_fst_drop readFlag 1 _ _ readFlag_eq (by omega)]
  apply List.map_congr_left
  intro j _
  simp only [Nat.one_mul]
  rw [getD_take_drop file (a + j) 1 0 (by omega)]
  simp only [Nat.add_zero]
  by_cases hc : a + (j + 1) ≤ file.length
  · rw [if_pos hc]
  · rw [if_neg hc, List.getD_eq_getElem?_getD, List.getElem?_eq_none (by omega)]
    rfl

theorem body_IsStandard (hd : tzhead) (file : List Byte) :
    (decodeBody hd (file.drop 44)).1.IsStandard =
      (List.range hd.TransIsStdCount).map
        (fun j => decide (file.getD (offStd hd + j) 0 = 1)) := by
  rw [decodeBody_eq]
  simp only [List.drop_drop]
  rw [flags_at]
  have e : 44 + (4 * hd.TimeCount + hd.TimeCount + 6 * hd.TypeCount + hd.CharCount
      + 8 * hd.LeapCount) = offStd hd := by
    unfold offStd; omega
  rw [e]

theorem body_IsUT (hd : tzhead) (file : List Byte) :
    (decodeBody hd (file.drop 44)).1.IsUT =
      (List.range hd.TransIsGMTCount).map
        (fun j => decide (file.getD (offUT hd + j) 0 = 1)) := by
  rw [decodeBody_eq]
  simp only [List.drop_drop]
  rw [flags_at]
  have e : 44 + (4 * hd.TimeCount + hd.TimeCount + 6 * hd.TypeCount + hd.CharCount
      + 8 * hd.LeapCount + hd.TransIsStdCount) = offUT hd := by
    unfold offUT; omega
  rw [e]

theorem body_rest (hd : tzhead) (file : List Byte) :
    (decodeBody hd (file.drop 44)).2 = file.drop (declaredLength hd) := by
  rw [decodeBody_eq]
  simp only [List.drop_drop]
  have e : 44 + (4 * hd.TimeCount + hd.TimeCount + 6 * hd.TypeCount + hd.CharCount
      + 8 * hd.LeapCount + hd.TransIsStdCount + hd.TransIsGMTCount) = declaredLength hd := by
    unfold declaredLength; omega
  rw [e]

theorem bytes_at (n a : Nat) (file : List Byte) :
    (readLoop readU8 n [] (file.drop a)).1 =
      (List.range n).map (fun j => file.getD (a + j) 0) := by
  rw [readLoop_fst_drop readU8 1 _ _ rfl (by omega)]
  apply List.map_congr_left
  intro j _
  simp only [Nat.one_mul]
  rw [getD_take_drop file (a + j) 1 0 (by omega)]
  simp only [Nat.add_zero]
  by_cases hc : a + (j + 1) ≤ file.length
  · rw [if_pos hc]
  · rw [if_neg hc, List.getD_eq_getElem?_getD, List.getElem?_eq_none (by omega)]
    rfl

theorem body_Times (hd : tzhead) (file : List Byte) :
    (decodeBody hd (file.drop 44)).1.Times =
      (List.range hd.TimeCount).map
        (fun i => if 44 + 4 * (i + 1) ≤ file.length then u32At file (44 + 4 * i) else 0) := by
  rw [decodeBody_eq]
  simp only []
  rw [readLoop_fst_drop readU32 4 _ _ rfl (by omega)]
  apply List.map_congr_left
  intro i _
  rw [u32At_take_drop file (44 + 4 * i) 4 0 (by omega)]
  rfl

theorem body_Types (hd : tzhead) (file : List Byte) :
    (decodeBody hd (file.drop 44)).1.Types =
      (List.range hd.TimeCount).map (fun i => file.getD (offTypes hd + i) 0) := by
  rw [decodeBody_eq]
  simp only [List.drop_drop]
  rw [bytes_at]
  rfl

/-- After a whole header with the right magic, what `toLua` leaves unread is the
stream without the bytes its header declares. -/
theorem toLuaRun_snd (path file : List Byte) (h : ValidHeader file) :
    (toLuaRun path file).2 = file.drop (declaredLength (decode file).Header) := by
  obtain ⟨hl, hm⟩ := h
  have hmag := magic_long file hl
  obtain ⟨m0, m1, m2, m3⟩ := (take4_eq_magic_iff file (by omega)).mp hm
  rw [decode_Header file hl, ← body_rest]
  unfold toLuaRun
  rw [readHeader_long file hl]
  simp only [hmag, m0, m1, m2, m3]
  simp only [ne_eq, not_true_eq_false, or_self, if_false]
  cases (decodeBody (decodeHead (file.take 44)) (file.drop 44)).1.ToLua (stripPath path) <;> rfl

theorem u32At_eq_bigEndianAt (file : List Byte) (x : Nat) : u32At file x = bigEndianAt file x := by
  unfold u32At bigEndianAt
  exact uint32BE_eq _ _ _ _

/-! ## Section sizes and order -/

/-- Claim C14. After a whole header with magic `TZif`, whatever the length of
the stream, the decoded model has TimeCount times and type indices, TypeCount
type records, CharCount abbreviation bytes, LeapCount leap records,
TransIsStdCount standard flags and TransIsGMTCount UT flags. The sections are
read in this order: each element comes from the bytes at its place after the
sections before it (zero where the stream has ended), and what is left unread
starts after the last UT flag. -/
theorem decode_section_sizes (path file : List Byte) (h : ValidHeader file) :
    ((decode file).Times.length = (decode file).Header.TimeCount ∧
      (decode file).Types.length = (decode file).Header.TimeCount ∧
      (decode file).Offsets.length = (decode file).Header.TypeCount ∧
      (decode file).ZoneAbbrs.length = (decode file).Header.CharCount ∧
      (decode file).Leaps.length = (decode file).Header.LeapCount ∧
      (decode file).IsStandard.length = (decode file).Header.TransIsStdCount ∧
      (decode file).IsUT.length = (decode file).Header.TransIsGMTCount) ∧
    ((decode file).Times = (List.range (decode file).Header.TimeCount).map
        (fun i => if 44 + 4 * (i + 1) ≤ file.length then u32At file (44 + 4 * i) else 0) ∧
      (decode file).Types = (List.range (decode file).Header.TimeCount).map
        (fun i => file.getD (44 + 4 * (decode file).Header.TimeCount + i) 0) ∧
      (decode file).Offsets = (List.range (decode file).Header.TypeCount).map
        (fun j => if offEntries (decode file).Header + 6 * (j + 1) ≤ file.length
          then entryAt file (offEntries (decode file).Header + 6 * j)
          else { Offset := 0, IsDST := false, AbbrIndex := 0 }) ∧
      (decode file).ZoneAbbrs =
        (file.drop (offAbbrs (decode file).Header)).take (decode file).Header.CharCount ++
          List.replicate ((decode file).Header.CharCount
            - (file.length - offAbbrs (decode file).Header)) 0 ∧
      (decode file).Leaps = (List.range (decode file).Header.LeapCount).map
        (fun j => if offLeaps (decode file).Header + 8 * (j + 1) ≤ file.length
          then leapAt file (offLeaps (decode file).Header + 8 * j) else { A := 0, B := 0 }) ∧
      (decode file).IsStandard = (List.range (decode file).Header.TransIsStdCount).map
        (fun j => decide (file.getD (offStd (decode file).Header + j) 0 = 1)) ∧
      (decode file).IsUT = (List.range (decode file).Header.TransIsGMTCount).map
        (fun j => decide (file.getD (offUT (decode file).Header + j) 0 = 1)) ∧
      (toLuaRun path file).2 =
        file.drop (offUT (decode file).Header + (decode file).Header.TransIsGMTCount)) := by
  have e := decode_eq_body file h.1
  have hT := (congrArg tz.Times e).trans (body_Times _ file)
  have hY := (congrArg tz.Types e).trans (body_Types _ file)
  have hO := (congrArg tz.Offsets e).trans (body_Offsets _ file)
  have hZ := (congrArg tz.ZoneAbbrs e).trans (body_ZoneAbbrs _ file)
  have hL := (congrArg tz.Leaps e).trans (body_Leaps _ file)
  have hS := (congrArg tz.IsStandard e).trans (body_IsStandard _ file)
  have hU := (congrArg tz.IsUT e).trans (body_IsUT _ file)
  refine ⟨⟨decode_Times_length file, decode_Types_length file, decode_Offsets_length file,
    decode_ZoneAbbrs_length file, ?_, ?_, ?_⟩, hT, hY, hO, hZ, hL, hS, hU, ?_⟩
  · rw [hL]; simp
  · rw [hS]; simp
  · rw [hU]; simp
  · rw [toLuaRun_snd path file h]
    rfl

/-- Claim C14 at the stream cut short after 4 of its 10 declared times and at
a whole stream of 66 bytes with every section present. -/
theorem decode_section_sizes_witness :
    ValidHeader truncated10 ∧ truncated10.length < declaredLength (decode truncated10).Header ∧
    (decode truncated10).Times.length = 10 ∧ (decode truncated10).Types.length = 10 ∧
    (decode truncated10).Offsets.length = 1 ∧ (decode truncated10).ZoneAbbrs.length = 1 ∧
    decode fullStream =
      { Header := { Magic := (84, 90, 105, 102), Version := 0, TransIsGMTCount := 1,
                    TransIsStdCount := 1, LeapCount := 1, TimeCount := 1, TypeCount := 1,
                    CharCount := 4 },
        Times := [1000], Types := [0],
        Offsets := [{ Offset := 4294949296, IsDST := false, AbbrIndex := 0 }],
        ZoneAbbrs := [69, 83, 84, 0], Leaps := [{ A := 78796800, B := 1 }],
        IsStandard := [true], IsUT := [true] } ∧
    ((decode truncated10).Times.length = (decode truncated10).Header.TimeCount ∧
      (decode truncated10).Types.length = (decode truncated10).Header.TimeCount ∧
      (decode truncated10).Offsets.length = (decode truncated10).Header.TypeCount ∧
      (decode truncated10).ZoneAbbrs.length = (decode truncated10).Header.CharCount ∧
      (decode truncated10).Leaps.length = (decode truncated10).Header.LeapCount ∧
      (decode truncated10).IsStandard.length = (decode truncated10).Header.TransIsStdCount ∧
      (decode truncated10).IsUT.length = (decode truncated10).Header.TransIsGMTCount) :=
  ⟨by decide, by decide, by decide, by decide, by decide, by decide, by decide,
    (decode_section_sizes pathEST truncated10 (by decide)).1⟩

/-! ## Byte order -/

/-- Claim C12. After a whole header with magic `TZif`, each of the six header
counts, each transition time and each type record offset whose four bytes the
stream holds equals `b0 * 2^24 + b1 * 2^16 + b2 * 2^8 + b3`, the `b`s being its
four bytes in stream order; the bytes `00 00 03 E8` give 1000. -/
theorem decode_big_endian (file : List Byte) (h : ValidHeader file) :
    (decode file).Header.TransIsGMTCount = bigEndianAt file 20 ∧
      (decode file).Header.TransIsStdCount = bigEndianAt file 24 ∧
      (decode file).Header.LeapCount = bigEndianAt file 28 ∧
      (decode file).Header.TimeCount = bigEndianAt file 32 ∧
      (decode file).Header.TypeCount = bigEndianAt file 36 ∧
      (decode file).Header.CharCount = bigEndianAt file 40 ∧
      (∀ i, i < (decode file).Header.TimeCount → 44 + 4 * (i + 1) ≤ file.length →
        (decode file).Times[i]? = some (bigEndianAt file (44 + 4 * i))) ∧
      (∀ j, j < (decode file).Header.TypeCount →
        44 + 5 * (decode file).Header.TimeCount + 6 * (j + 1) ≤ file.length →
        ∃ o, (decode file).Offsets[j]? = some o ∧
          o.Offset = bigEndianAt file (44 + 5 * (decode file).Header.TimeCount + 6 * j)) ∧
      uint32BE 0 0 3 232 = 1000 := by
  have hh := decode_Header file h.1
  have hc : ∀ x, x + 4 ≤ 44 → u32At (file.take 44) x = bigEndianAt file x := by
    intro x hx
    have := u32At_take_drop file 0 44 x hx
    rw [List.drop_zero, Nat.zero_add] at this
    rw [this, u32At_eq_bigEndianAt]
  refine ⟨?_, ?_, ?_, ?_, ?_, ?_, ?_, ?_, by decide⟩
  · rw [hh]; exact hc 20 (by omega)
  · rw [hh]; exact hc 24 (by omega)
  · rw [hh]; exact hc 28 (by omega)
  · rw [hh]; exact hc 32 (by omega)
  · rw [hh]; exact hc 36 (by omega)
  · rw [hh]; exact hc 40 (by omega)
  · intro i hi hlen
    rw [decode_Times_getElem? file h.1 i hi, if_pos hlen, u32At_eq_bigEndianAt]
  · intro j hj hlen
    have hO := (congrArg tz.Offsets (decode_eq_body file h.1)).trans (body_Offsets _ file)
    have hoff : offEntries (decode file).Header = 44 + 5 * (decode file).Header.TimeCount := rfl
    refine ⟨entryAt file (44 + 5 * (decode file).Header.TimeCount + 6 * j), ?_, ?_⟩
    · rw [hO, List.getElem?_map, List.getElem?_range hj, hoff]
      simp only [Option.map_some']
      rw [if_pos hlen]
    · exact u32At_eq_bigEndianAt _ _

/-- Claim C12 at the scenario stream: its time is 1000 and its offset
`255 * 2^24 + 255 * 2^16 + 185 * 2^8 + 176`. -/
theorem decode_big_endian_witness :
    ValidHeader scenarioEST ∧ bigEndianAt scenarioEST 44 = 1000 ∧
      bigEndianAt scenarioEST 49 = 255 * 2 ^ 24 + 255 * 2 ^ 16 + 185 * 2 ^ 8 + 176 ∧
      ((decode scenarioEST).Header.TransIsGMTCount = bigEndianAt scenarioEST 20 ∧
      (decode scenarioEST).Header.TransIsStdCount = bigEndianAt scenarioEST 24 ∧
      (decode scenarioEST).Header.LeapCount = bigEndianAt scenarioEST 28 ∧
      (decode scenarioEST).Header.TimeCount = bigEndianAt scenarioEST 32 ∧
      (decode scenarioEST).Header.TypeCount = bigEndianAt scenarioEST 36 ∧
      (decode scenarioEST).Header.CharCount = bigEndianAt scenarioEST 40 ∧
      (∀ i, i < (decode scenarioEST).Header.TimeCount → 44 + 4 * (i + 1) ≤ scenarioEST.length →
        (decode scenarioEST).Times[i]? = some (bigEndianAt scenarioEST (44 + 4 * i))) ∧
      (∀ j, j < (decode scenarioEST).Header.TypeCount →
        44 + 5 * (decode scenarioEST).Header.TimeCount + 6 * (j + 1) ≤ scenarioEST.length →
        ∃ o, (decode scenarioEST).Offsets[j]? = some o ∧
          o.Offset =
            bigEndianAt scenarioEST (44 + 5 * (decode scenarioEST).Header.TimeCount + 6 * j)) ∧
      uint32BE 0 0 3 232 = 1000) :=
  ⟨by decide, by decide, by decide, decode_big_endian scenarioEST (by decide)⟩

/-! ## Bytes after the declared sections -/

theorem validHeader_append (s t : List Byte) (h : ValidHeader s) : ValidHeader (s ++ t) := by
  obtain ⟨hl, hm⟩ := h
  refine ⟨by rw [List.length_append]; omega, ?_⟩
  rw [List.take_append_of_le_length (by omega)]
  exact hm

theorem decode_append (s t : List Byte) (h : ValidHeader s)
    (hlen : declaredLength (decode s).Header ≤ s.length) : decode (s ++ t) = decode s := by
  have hl := h.1
  have hl' : 44 ≤ (s ++ t).length := by rw [List.length_append]; omega
  have hh := decode_Header s hl
  rw [hh] at hlen
  unfold declaredLength at hlen
  unfold decode
  rw [readHeader_long _ hl', readHeader_long _ hl, List.take_append_of_le_length hl,
    List.drop_append_of_le_length hl]
  simp only []
  rw [decodeBody_append _ _ _ (by rw [List.length_drop]; omega)]

/-- Claim C13. For a stream `s` with a whole `TZif` header and exactly the
`44 + 5 * TimeCount + 6 * TypeCount + CharCount + 8 * LeapCount + TransIsStdCount
+ TransIsGMTCount` bytes its header declares, and any bytes `t` after it,
decode-then-encode of `s ++ t` has the result it has on `s`: the decoded model
is the same and `t` is what is left unread. -/
theorem toLua_trailing (path s t : List Byte) (h : ValidHeader s)
    (hlen : s.length = declaredLength (decode s).Header) :
    toLua path (s ++ t) = toLua path s ∧ decode (s ++ t) = decode s ∧
      (toLuaRun path (s ++ t)).2 = t ∧
      declaredLength (decode s).Header =
        44 + 5 * (decode s).Header.TimeCount + 6 * (decode s).Header.TypeCount
          + (decode s).Header.CharCount + 8 * (decode s).Header.LeapCount
          + (decode s).Header.TransIsStdCount + (decode s).Header.TransIsGMTCount := by
  have hd := decode_append s t h (by omega)
  have hv := validHeader_append s t h
  refine ⟨?_, hd, ?_, rfl⟩
  · rw [toLua_of_validHeader path _ hv, toLua_of_validHeader path _ h, hd]
  · rw [toLuaRun_snd path _ hv, hd, ← hlen]
    simp

/-- Claim C13 at a whole stream of 66 bytes followed by the start of a
version-2 block. -/
theorem toLua_trailing_witness :
    ValidHeader fullStream ∧ fullStream.length = declaredLength (decode fullStream).Header ∧
      toLua pathEST (fullStream ++ trailingBlock) = toLua pathEST fullStream ∧
      decode (fullStream ++ trailingBlock) = decode fullStream ∧
      (toLuaRun pathEST (fullStream ++ trailingBlock)).2 = trailingBlock ∧
      declaredLength (decode fullStream).Header =
        44 + 5 * (decode fullStream).Header.TimeCount + 6 * (decode fullStream).Header.TypeCount
          + (decode fullStream).Header.CharCount + 8 * (decode fullStream).Header.LeapCount
          + (decode fullStream).Header.TransIsStdCount
          + (decode fullStream).Header.TransIsGMTCount :=
  ⟨by decide, by decide, toLua_trailing pathEST fullStream trailingBlock (by decide) (by decide)⟩

end Luatzgen
